import Mathlib

/-!
Verification of the Intel HEX read/write utility (src/ihex.c).

The C source is shallowly embedded as executable Lean functions:

* `checksum` models the static C function `checksum` (two's-complement
  record checksum truncated to 8 bits).
* `ihex_write` models `ihex_write`: the emitted stream is represented as a
  list of records (`Rec`), each carrying the full chunk start address as
  ghost data; `renderRec` produces the exact character sequence written by
  the `fprintf` calls (the C file stream is modelled as the list of
  characters written; `fprintf` failure paths, which only depend on the
  external stream, are not modelled, so the model is the output on an
  error-free stream).
* `ihex_read` models `ihex_read`: the input stream is a list of characters,
  split into lines exactly as `fgets(line, 523, f)` does; `sscanf` hex
  conversions are modelled by `scanHex` (leading-whitespace skip, at least
  one hex digit, at most `width` digits; the rarely exercised `0x` prefix
  and sign forms of `%x` are not modelled, and no input in this development
  uses them).  The destination buffer is a `List Nat` of byte values; the C
  out-of-bounds store (undefined behaviour) is modelled by `List.set`,
  which leaves the list unchanged for an out-of-range index, and every
  store is additionally recorded as a ghost `WriteEv` event so that
  statements about attempted stores can be made.  The `free(buf)` calls on
  the C error paths concern ownership only and have no counterpart in the
  functional model.

All machine arithmetic is on `Nat` with explicit `% 4294967296` at the
points where the C `unsigned int` expressions can exceed 32 bits.
-/

namespace Ihex

/-- The 2^32 modulus of the C type unsigned int. -/
def M32 : Nat := 4294967296

/-- Value of a hex digit character, none for a non-digit; models the
character classes accepted by the %x conversions of sscanf. -/
def hexVal? (c : Char) : Option Nat :=
  if '0' ≤ c ∧ c ≤ '9' then some (c.toNat - 48)
  else if 'a' ≤ c ∧ c ≤ 'f' then some (c.toNat - 87)
  else if 'A' ≤ c ∧ c ≤ 'F' then some (c.toNat - 55)
  else none

/-- A character is a hex digit iff hexVal? accepts it. -/
def isHexDigit (c : Char) : Bool := (hexVal? c).isSome

/-- The whitespace class of C isspace, skipped by scanf %x conversions. -/
def isSpace (c : Char) : Bool :=
  c = ' ' ∨ c = '\t' ∨ c = '\n' ∨ c = '\x0b' ∨ c = '\x0c' ∨ c = '\r'

/-- Drop leading scanf whitespace. -/
def skipWs : List Char → List Char
  | [] => []
  | c :: r => if isSpace c then skipWs r else c :: r

/-- Consume up to w further hex digits, accumulating into acc; stops at the
first non-digit (models the greedy digit loop of a %x conversion after its
first digit). -/
def scanHexCore (acc : Nat) : Nat → List Char → Nat × List Char
  | 0, l => (acc, l)
  | _ + 1, [] => (acc, [])
  | w + 1, c :: r =>
    match hexVal? c with
    | some v => scanHexCore (acc * 16 + v) w r
    | none => (acc, c :: r)

/-- Model of a single sscanf conversion %0wx: skip whitespace, require one
hex digit, then take at most w - 1 further digits.  Returns the value and
the unconsumed characters, or none on matching failure. -/
def scanHex (w : Nat) (l : List Char) : Option (Nat × List Char) :=
  match skipWs l with
  | [] => none
  | c :: r =>
    match hexVal? c with
    | some v => some (scanHexCore v (w - 1) r)
    | none => none

/-- Model of sscanf(line, ":%02x%04x%02x", ...): a literal colon followed by
the three header conversions; some iff the C call returns 3. -/
def parseHeader (l : List Char) : Option (Nat × Nat × Nat) :=
  match l with
  | ':' :: r =>
    match scanHex 2 r with
    | none => none
    | some (len, r1) =>
      match scanHex 4 r1 with
      | none => none
      | some (addr, r2) =>
        match scanHex 2 r2 with
        | none => none
        | some (typ, _) => some (len, addr, typ)
  | _ => none

/-- Model of the static C function checksum(buf, length, chunk_len,
chunk_addr, chunk_type).  The C length argument is the length of the byte
list here.  sum = chunk_len + LO(chunk_addr) + HI(chunk_addr) + chunk_type
+ Σ buf; the result is (~sum + 1) & 0xff, i.e. the negation of sum modulo
256 (all summands are nonnegative at every call site). -/
def checksum (buf : List Nat) (chunk_len chunk_addr chunk_type : Nat) : Nat :=
  (256 - (chunk_len + chunk_addr % 256 + chunk_addr / 256 % 256 + chunk_type
      + buf.sum) % 256) % 256

/-- One record emitted by ihex_write.  A data record keeps the full 32-bit
chunk start address cs as ghost information; the wire format only carries
cs % 65536 (see renderRec), exactly as the C code prints chunk_start &
0xffff. -/
inductive Rec where
  | ela (page : Nat)
  | data (cs : Nat) (len : Nat) (bytes : List Nat)
  | eof
deriving DecidableEq, Repr

/-- Uppercase hex digit character for d < 16, as printed by %X. -/
def hexU (d : Nat) : Char :=
  if d < 10 then Char.ofNat (48 + d) else Char.ofNat (55 + d)

/-- The two characters printed by %02X for a byte value (call sites only
pass values below 256, matching the C unsigned char arguments). -/
def hex2 (n : Nat) : List Char := [hexU (n / 16 % 16), hexU (n % 16)]

/-- The four characters printed by %04X for a 16-bit value (call sites only
pass values below 65536). -/
def hex4 (n : Nat) : List Char :=
  [hexU (n / 4096 % 16), hexU (n / 256 % 16), hexU (n / 16 % 16), hexU (n % 16)]

/-- The exact character sequence ihex_write prints for one record:
data:  ":%02X%04X00" ++ the bytes in %02X ++ checksum in %02X ++ newline,
       with address chunk_start & 0xffff and checksum over the chunk;
ela:   ":02000004%04X%02X\n" (the literal part equals
       colon ++ hex2 2 ++ hex4 0 ++ hex2 4);
eof:   the literal ":00000001FF\n". -/
def renderRec : Rec → List Char
  | .ela p =>
    ':' :: (hex2 2 ++ hex4 0 ++ hex2 4 ++ hex4 p
      ++ hex2 (checksum [p / 256 % 256, p % 256] 2 0 4) ++ ['\n'])
  | .data cs len bytes =>
    ':' :: (hex2 len ++ hex4 (cs % 65536) ++ hex2 0 ++ (bytes.map hex2).flatten
      ++ hex2 (checksum bytes len cs 0) ++ ['\n'])
  | .eof => ':' :: (hex2 0 ++ hex4 0 ++ hex2 1 ++ [hexU 15, hexU 15, '\n'])

/-- All characters ihex_write prints, in order. -/
def renderAll (recs : List Rec) : List Char := (recs.map renderRec).flatten

/-- The chunk length chosen by ihex_write for a chunk starting at cs:
the remaining bytes, limited to 32, then clamped so the chunk does not run
past the end of the current 64KiB block. -/
def chunkLenF (endA cs : Nat) : Nat :=
  let len0 := endA - cs
  let len1 := if len0 > 32 then 32 else len0
  if cs % 65536 + len1 > 65535 then 65536 - cs % 65536 else len1

/-- The write loop of ihex_write, driven by a fuel counter so that it is
structurally recursive (each chunk advances chunk_start by at least one
byte, so a fuel of endA - cs is enough; see writeChunks_eq).  ce is the C
variable cur_ela viewed through its conversion to unsigned int in the
comparison cur_ela != (chunk_start >> 16): the initial value -1 becomes
4294967295.  When the current 64KiB page differs from ce an ELA record is
emitted and ce becomes that page; the recursive call passes cs / 65536,
which equals the updated ce in both branches.  Data bytes are read from the
source buffer at offset chunk_start - start, as in the C loop. -/
def writeChunksGo (buf : List Nat) (start endA : Nat) : Nat → Nat → Nat → List Rec
  | 0, _, _ => []
  | fuel + 1, cs, ce =>
    if cs < endA then
      let len := chunkLenF endA cs
      let bytes := (List.range len).map (fun k => buf.getD (cs - start + k) 0)
      let rest := writeChunksGo buf start endA fuel (cs + len) (cs / 65536)
      if ce ≠ cs / 65536 then
        Rec.ela (cs / 65536) :: Rec.data cs len bytes :: rest
      else
        Rec.data cs len bytes :: rest
    else []

/-- The write loop with its exact fuel. -/
def writeChunks (buf : List Nat) (start endA cs ce : Nat) : List Rec :=
  writeChunksGo buf start endA (endA - cs) cs ce

/-- Model of ihex_write(pFile, buf, start, end): the record stream, ending
with the EOF record.  cur_ela starts at 0, or at -1 (4294967295 as
unsigned) when end > 65535. -/
def ihex_write (buf : List Nat) (start endA : Nat) : List Rec :=
  writeChunks buf start endA start (if endA > 65535 then 4294967295 else 0) ++ [Rec.eof]

/-- Model of fgets(line, 523, f) on the remaining characters: take
characters up to and including the first newline, but at most 522
characters.  Returns the line and the unconsumed rest. -/
def fgetsLine : Nat → List Char → List Char × List Char
  | 0, rest => ([], rest)
  | _ + 1, [] => ([], [])
  | n + 1, c :: rest =>
    if c = '\n' then ([c], rest)
    else
      let p := fgetsLine n rest
      (c :: p.1, p.2)

/-- Split a character stream into the successive lines returned by the
fgets loop of ihex_read (fuel-driven; the fuel t.length suffices because
each fgets call consumes at least one character). -/
def fgetsSplitGo : Nat → List Char → List (List Char)
  | _, [] => []
  | 0, _ :: _ => []
  | f + 1, c :: rest =>
    let p := fgetsLine 522 (c :: rest)
    p.1 :: fgetsSplitGo f p.2

/-- All lines of a character stream, as read by the fgets loop. -/
def fgetsSplit (t : List Char) : List (List Char) := fgetsSplitGo t.length t

/-- Ghost record of one execution of the store
buf[chunk_addr + offset - start + (i - 9) / 2] = byte
in ihex_read: a is the exact value chunk_addr + offset (which never exceeds
32 bits), len the record length field, k the byte position (i - 9) / 2,
idx the 32-bit store index, val the stored byte. -/
structure WriteEv where
  a : Nat
  len : Nat
  k : Nat
  idx : Nat
  val : Nat
deriving DecidableEq, Repr

/-- The mutable state of one ihex_read call: the running address-extension
offset, the greatest_addr tracker, the destination buffer, plus two ghost
histories: every attempted store (writes) and every value
(chunk_addr + offset + chunk_len) % 2^32 at a tracker check (spans). -/
structure DecSt where
  offset : Nat
  greatest : Nat
  buf : List Nat
  writes : List WriteEv
  spans : List Nat
deriving DecidableEq, Repr

/-- The error exits of ihex_read, each carrying the 1-based line number the
C code prints: header for the ":%02x%04x%02x" failure, ext for a failed
extension-address scan, dataByte for a failed "%02x" at column i, rangeLow
and rangeHigh for the two address-range checks.  All of them make the C
function return -1. -/
inductive RErr where
  | header (lineNo : Nat)
  | ext (lineNo : Nat)
  | dataByte (lineNo i : Nat)
  | rangeLow (lineNo : Nat)
  | rangeHigh (lineNo : Nat)
deriving DecidableEq, Repr

/-- The effect of one successful iteration of the ihex_read data loop on
the decoder state: the greatest_addr update
  if (chunk_addr + offset + chunk_len > greatest_addr) greatest_addr = ...
the store
  buf[chunk_addr + offset - start + (i - 9) / 2] = byte
and the two ghost histories.  Here a is the exact value
chunk_addr + offset, len the record length field, kv.1 the byte position
(i - 9) / 2 and kv.2 the parsed byte. -/
def storeStep (startA a len : Nat) (st : DecSt) (kv : Nat × Nat) : DecSt :=
  { st with
    greatest := if (a + len) % M32 > st.greatest then (a + len) % M32 else st.greatest
    buf := st.buf.set ((a - startA + kv.1) % M32) kv.2
    writes := st.writes ++ [⟨a, len, kv.1, (a - startA + kv.1) % M32, kv.2⟩]
    spans := st.spans ++ [(a + len) % M32] }

/-- The combined effect of the data-loop iterations for byte positions
k, k+1, ... with the given byte values. -/
def storeRun (startA a len : Nat) : Nat → List Nat → DecSt → DecSt
  | _, [], st => st
  | k, v :: vs, st => storeRun startA a len (k + 1) vs (storeStep startA a len st (k, v))

/-- The data loop of ihex_read, for(i = 9; i < strlen(line) - 1; i += 2):
parse a byte pair at column i, stop on a non-data record type, stop once
chunk_len bytes were taken, check the two address-range guards, update
greatest_addr and store the byte.  chunk_addr + st.offset is exact because
chunk_addr < 2^16 and every offset value is at most 0xFFFF0000; the guard
sum chunk_addr + offset + chunk_len and the store index are reduced modulo
2^32, where the C unsigned arithmetic can wrap.  A line of length 0 cannot
come out of fgets, so the C out-of-bounds read for that case has no
counterpart here. -/
def readPairsGo (startA endA lineNo : Nat) (line : List Char)
    (chunkLen chunkAddr chunkType : Nat) : Nat → Nat → DecSt → DecSt × Option RErr
  | 0, _, st => (st, none)
  | fuel + 1, i, st =>
    if i < line.length - 1 then
      match scanHex 2 (line.drop i) with
      | none => (st, some (RErr.dataByte lineNo i))
      | some (byte, _) =>
        if chunkType ≠ 0 then (st, none)
        else if (i - 9) / 2 ≥ chunkLen then (st, none)
        else if chunkAddr + st.offset < startA then (st, some (RErr.rangeLow lineNo))
        else if (chunkAddr + st.offset + chunkLen) % M32 > endA then
          (st, some (RErr.rangeHigh lineNo))
        else
          readPairsGo startA endA lineNo line chunkLen chunkAddr chunkType fuel (i + 2)
            (storeStep startA (chunkAddr + st.offset) chunkLen st ((i - 9) / 2, byte))
    else (st, none)

/-- The data loop with its exact fuel (the loop index only grows, so
line.length - i bounds the remaining iterations; see readPairs_eq). -/
def readPairs (startA endA lineNo : Nat) (line : List Char)
    (chunkLen chunkAddr chunkType : Nat) (i : Nat) (st : DecSt) :
    DecSt × Option RErr :=
  readPairsGo startA endA lineNo line chunkLen chunkAddr chunkType
    (line.length - i) i st

/-- Processing of one fgets line by ihex_read.  The C code first tries to
strip a carriage return with
  if (line[strlen(line)] == '\r') line[strlen(line)] = 0;
but line[strlen(line)] is the terminating NUL, so the condition is never
true; the conditional is modelled verbatim on the NUL-padded view of the
string and is provably the identity.  Then the header is parsed, the
type-02 and type-04 records update offset from the four hex digits at
column 9, and the data loop runs from column 9. -/
def readLine (startA endA lineNo : Nat) (line0 : List Char) (st : DecSt) :
    DecSt × Option RErr :=
  let line := if line0.getD line0.length (Char.ofNat 0) = '\r'
              then line0.take line0.length else line0
  match parseHeader line with
  | none => (st, some (RErr.header lineNo))
  | some (chunkLen, chunkAddr, chunkType) =>
    let r2 : DecSt × Option RErr :=
      if chunkType = 2 then
        match scanHex 4 (line.drop 9) with
        | none => (st, some (RErr.ext lineNo))
        | some (esa, _) => ({ st with offset := esa * 16 }, none)
      else (st, none)
    match r2 with
    | (_, some e) => (st, some e)
    | (st2, none) =>
      let r4 : DecSt × Option RErr :=
        if chunkType = 4 then
          match scanHex 4 (line.drop 9) with
          | none => (st2, some (RErr.ext lineNo))
          | some (ela, _) => ({ st2 with offset := ela * 65536 }, none)
        else (st2, none)
      match r4 with
      | (_, some e) => (st2, some e)
      | (st4, none) => readPairs startA endA lineNo line chunkLen chunkAddr chunkType 9 st4

/-- The while(fgets(...)) loop of ihex_read over the already split lines;
n is the number of lines already consumed, so the current line is line
n + 1 (the C code prints 1-based line numbers). -/
def readLines (startA endA : Nat) : List (List Char) → Nat → DecSt → DecSt × Option RErr
  | [], _, st => (st, none)
  | l :: ls, n, st =>
    match readLine startA endA (n + 1) l st with
    | (st1, some e) => (st1, some e)
    | (st1, none) => readLines startA endA ls (n + 1) st1

/-- Model of ihex_read(pFile, buf, start, end) up to the final return
expression: the final state and the error, if any.  The initial state has
offset = 0, greatest_addr = 0 and the caller's destination buffer. -/
def ihex_read (text : List Char) (buf : List Nat) (startA endA : Nat) :
    DecSt × Option RErr :=
  readLines startA endA (fgetsSplit text) 0 ⟨0, 0, buf, [], []⟩

/-- 32-bit unsigned subtraction a - b (both reduced modulo 2^32). -/
def usub32 (a b : Nat) : Nat := (a % M32 + M32 - b % M32) % M32

/-- Reinterpretation of a 32-bit unsigned value as the C int returned by
ihex_read (two's complement). -/
def toInt32 (n : Nat) : Int :=
  if n % M32 < 2147483648 then (n % M32 : Int) else (n % M32 : Int) - (M32 : Int)

/-- The int value ihex_read returns: -1 on any error exit, otherwise
greatest_addr - start computed in unsigned int and returned as int. -/
def ihex_read_ret (text : List Char) (buf : List Nat) (startA endA : Nat) : Int :=
  match ihex_read text buf startA endA with
  | (st, none) => toInt32 (usub32 st.greatest startA)
  | (_, some _) => -1

/-- The hex value of a character (0 for a non-digit). -/
def hv (c : Char) : Nat := (hexVal? c).getD 0

/-- The byte value of a two-character hex pair, as parsed by "%02x". -/
def pairVal (p : Char × Char) : Nat := hv p.1 * 16 + hv p.2

/-- Both characters of a pair are hex digits. -/
def hexPair (p : Char × Char) : Prop := isHexDigit p.1 ∧ isHexDigit p.2

/-- Flatten a list of character pairs. -/
def flatPairs (ps : List (Char × Char)) : List Char :=
  (ps.map (fun p => [p.1, p.2])).flatten

/-- The byte values of a list of hex pairs. -/
def pairsVals (ps : List (Char × Char)) : List Nat := ps.map pairVal

/-- The two uppercase hex digits of a byte, as a pair (hex2 b is exactly
these two characters in sequence). -/
def bytePair (b : Nat) : Char × Char := (hexU (b / 16 % 16), hexU (b % 16))

/-- Number of Extended Linear Address records in a record stream. -/
def countEla : List Rec → Nat
  | [] => 0
  | .ela _ :: r => countEla r + 1
  | _ :: r => countEla r

/-- Structural check for the ELA placement discipline: given the page
cur the reader currently assumes (none when nothing determines it yet),
every ELA record announces a page different from cur and is immediately
followed by a Data record of exactly that page, and every Data record on a
page other than cur is preceded by such an ELA record. -/
def elaChainOk : List Rec → Option Nat → Bool
  | [], _ => true
  | .eof :: rest, cur => elaChainOk rest cur
  | .ela p :: .data cs _ _ :: rest, _cur =>
    decide (cs / 65536 = p) && decide (some p ≠ _cur) && elaChainOk rest (some p)
  | .ela _ :: _, _ => false
  | .data cs _ _ :: rest, cur => decide (some (cs / 65536) = cur) && elaChainOk rest cur

/-- The length field of a record as rendered on the wire. -/
def recLen : Rec → Nat
  | .ela _ => 2
  | .data _ len _ => len
  | .eof => 0

/-- The 16-bit address field of a record as rendered on the wire. -/
def recAddr : Rec → Nat
  | .ela _ => 0
  | .data cs _ _ => cs % 65536
  | .eof => 0

/-- The type field of a record as rendered on the wire. -/
def recType : Rec → Nat
  | .ela _ => 4
  | .data _ _ _ => 0
  | .eof => 1

/-- The data bytes of a record as rendered on the wire. -/
def recData : Rec → List Nat
  | .ela p => [p / 256 % 256, p % 256]
  | .data _ _ bytes => bytes
  | .eof => []

/-- The checksum byte of a record as rendered on the wire (the same
checksum calls as in renderRec; the EOF record is the literal FF). -/
def recCk : Rec → Nat
  | .ela p => checksum [p / 256 % 256, p % 256] 2 0 4
  | .data cs len bytes => checksum bytes len cs 0
  | .eof => 255

/-- The Intel HEX sum-to-zero equation for a record: length + low address
byte + high address byte + type + data bytes + checksum is divisible by
256. -/
def recSumOk (r : Rec) : Prop :=
  (recLen r + recAddr r % 256 + recAddr r / 256 % 256 + recType r
    + (recData r).sum + recCk r) % 256 = 0

/-- A standard-format record line: colon, two hex digits of length, four
of address, two of type, the data field characters, two checksum
characters, newline. -/
structure StdRec where
  len : Nat
  addr : Nat
  typ : Nat
  payload : List Char
  ck1 : Char
  ck2 : Char

/-- The characters of a standard-format record line. -/
def StdRec.render (r : StdRec) : List Char :=
  ':' :: (hex2 r.len ++ hex4 r.addr ++ hex2 r.typ ++ r.payload ++ [r.ck1, r.ck2, '\n'])

/-- Everything in a standard-format record line except the checksum
characters. -/
def StdRec.core (r : StdRec) : Nat × Nat × Nat × List Char :=
  (r.len, r.addr, r.typ, r.payload)

/-- Well-formedness of a standard-format record line: fields in range, the
data field is 2 * len hex digits, the checksum characters are hex digits,
and extension records (types 02 and 04) carry at least their two payload
bytes, as the wire format prescribes. -/
def StdRec.wf (r : StdRec) : Prop :=
  r.len < 256 ∧ r.addr < 65536 ∧ r.typ < 256 ∧
  r.payload.length = 2 * r.len ∧ (∀ c ∈ r.payload, isHexDigit c = true) ∧
  isHexDigit r.ck1 = true ∧ isHexDigit r.ck2 = true ∧
  ((r.typ = 2 ∨ r.typ = 4) → 2 ≤ r.len)

instance (r : StdRec) : Decidable r.wf := by
  unfold StdRec.wf
  infer_instance

/-- The facts the two range guards of ihex_read establish about every store
it performs: the record's absolute address a is at least start, the 32-bit
sum a + length is at most end, the byte position is below the length field,
and the store index is the 32-bit value a - start + k. -/
def wOk (startA endA : Nat) (w : WriteEv) : Prop :=
  startA ≤ w.a ∧ (w.a + w.len) % M32 ≤ endA ∧ w.k < w.len ∧
  w.idx = (w.a - startA + w.k) % M32

/-- A line as produced by a single fgets call on a well-formed stream:
some newline-free body of at most 521 characters followed by a newline. -/
def goodLine (l : List Char) : Prop :=
  ∃ body, l = body ++ ['\n'] ∧ body.length ≤ 521 ∧ '\n' ∉ body

/-- Group a character list into consecutive pairs (a trailing odd
character is dropped); the data field of a standard record line viewed as
byte pairs. -/
def toPairs : List Char → List (Char × Char)
  | c1 :: c2 :: r => (c1, c2) :: toPairs r
  | _ => []

/-! ### Basic facts about the write loop -/

theorem chunkLenF_pos (endA cs : Nat) (h : cs < endA) : 0 < chunkLenF endA cs := by
  unfold chunkLenF
  have h2 : cs % 65536 < 65536 := Nat.mod_lt _ (by omega)
  simp only
  split <;> split <;> omega

theorem chunkLenF_le32 (endA cs : Nat) (h : cs < endA) : chunkLenF endA cs ≤ 32 := by
  unfold chunkLenF
  have h2 : cs % 65536 < 65536 := Nat.mod_lt _ (by omega)
  simp only
  split <;> split <;> omega

theorem chunkLenF_page (endA cs : Nat) :
    cs % 65536 + chunkLenF endA cs ≤ 65536 := by
  unfold chunkLenF
  have h2 : cs % 65536 < 65536 := Nat.mod_lt _ (by omega)
  simp only
  split <;> split <;> omega

theorem chunkLenF_le_end (endA cs : Nat) (h : cs < endA) :
    cs + chunkLenF endA cs ≤ endA := by
  unfold chunkLenF
  have h2 : cs % 65536 < 65536 := Nat.mod_lt _ (by omega)
  simp only
  split <;> split <;> omega

theorem writeChunksGo_congr (buf : List Nat) (start endA : Nat) :
    ∀ f1 f2 cs ce, endA - cs ≤ f1 → endA - cs ≤ f2 →
    writeChunksGo buf start endA f1 cs ce = writeChunksGo buf start endA f2 cs ce := by
  intro f1
  induction f1 with
  | zero =>
    intro f2 cs ce h1 h2
    cases f2 with
    | zero => rfl
    | succ g =>
      simp only [writeChunksGo]
      rw [if_neg (by omega)]
  | succ f ih =>
    intro f2 cs ce h1 h2
    cases f2 with
    | zero =>
      simp only [writeChunksGo]
      rw [if_neg (by omega)]
    | succ g =>
      simp only [writeChunksGo]
      by_cases hcs : cs < endA
      · have hlen := chunkLenF_pos endA cs hcs
        rw [if_pos hcs, if_pos hcs,
          ih g (cs + chunkLenF endA cs) (cs / 65536) (by omega) (by omega)]
      · rw [if_neg hcs, if_neg hcs]

/-- One-step unfolding of writeChunks, recovering the shape of the C while
loop. -/
theorem writeChunks_eq (buf : List Nat) (start endA cs ce : Nat) :
    writeChunks buf start endA cs ce =
      if cs < endA then
        (if ce ≠ cs / 65536 then
          [Rec.ela (cs / 65536),
            Rec.data cs (chunkLenF endA cs)
              ((List.range (chunkLenF endA cs)).map (fun k => buf.getD (cs - start + k) 0))]
         else
          [Rec.data cs (chunkLenF endA cs)
              ((List.range (chunkLenF endA cs)).map (fun k => buf.getD (cs - start + k) 0))])
        ++ writeChunks buf start endA (cs + chunkLenF endA cs) (cs / 65536)
      else [] := by
  unfold writeChunks
  by_cases hcs : cs < endA
  · have h0 : endA - cs = (endA - cs - 1) + 1 := by omega
    rw [h0]
    simp only [writeChunksGo]
    rw [if_pos hcs, if_pos hcs]
    have hlen := chunkLenF_pos endA cs hcs
    rw [writeChunksGo_congr buf start endA (endA - cs - 1)
      (endA - (cs + chunkLenF endA cs)) (cs + chunkLenF endA cs) (cs / 65536)
      (by omega) (by omega)]
    by_cases hce : ce ≠ cs / 65536
    · rw [if_pos hce, if_pos hce]; rfl
    · rw [if_neg hce, if_neg hce]; rfl
  · cases h0 : endA - cs with
    | zero => simp only [writeChunksGo]; rw [if_neg hcs]
    | succ g => omega

/-! ### Basic facts about the data loop -/

theorem readPairsGo_congr (startA endA lineNo : Nat) (line : List Char)
    (chunkLen chunkAddr chunkType : Nat) :
    ∀ f1 f2 i st, line.length - i ≤ f1 → line.length - i ≤ f2 →
    readPairsGo startA endA lineNo line chunkLen chunkAddr chunkType f1 i st =
      readPairsGo startA endA lineNo line chunkLen chunkAddr chunkType f2 i st := by
  intro f1
  induction f1 with
  | zero =>
    intro f2 i st h1 h2
    cases f2 with
    | zero => rfl
    | succ g =>
      simp only [readPairsGo]
      rw [if_neg (by omega)]
  | succ f ih =>
    intro f2 i st h1 h2
    cases f2 with
    | zero =>
      simp only [readPairsGo]
      rw [if_neg (by omega)]
    | succ g =>
      simp only [readPairsGo]
      by_cases hi : i < line.length - 1
      · rw [if_pos hi, if_pos hi]
        cases scanHex 2 (line.drop i) with
        | none => rfl
        | some p =>
          simp only
          rw [ih g (i + 2) _ (by omega) (by omega)]
      · rw [if_neg hi, if_neg hi]

/-- One-step unfolding of readPairs, recovering the shape of the C for
loop. -/
theorem readPairs_eq (startA endA lineNo : Nat) (line : List Char)
    (chunkLen chunkAddr chunkType : Nat) (i : Nat) (st : DecSt) :
    readPairs startA endA lineNo line chunkLen chunkAddr chunkType i st =
      if i < line.length - 1 then
        match scanHex 2 (line.drop i) with
        | none => (st, some (RErr.dataByte lineNo i))
        | some (byte, _) =>
          if chunkType ≠ 0 then (st, none)
          else if (i - 9) / 2 ≥ chunkLen then (st, none)
          else if chunkAddr + st.offset < startA then (st, some (RErr.rangeLow lineNo))
          else if (chunkAddr + st.offset + chunkLen) % M32 > endA then
            (st, some (RErr.rangeHigh lineNo))
          else
            readPairs startA endA lineNo line chunkLen chunkAddr chunkType (i + 2)
              (storeStep startA (chunkAddr + st.offset) chunkLen st ((i - 9) / 2, byte))
      else (st, none) := by
  unfold readPairs
  by_cases hi : i < line.length - 1
  · have h0 : line.length - i = (line.length - i - 1) + 1 := by omega
    rw [h0]
    simp only [readPairsGo]
    rw [if_pos hi, if_pos hi]
    cases hs : scanHex 2 (line.drop i) with
    | none => rfl
    | some p =>
      simp only
      by_cases ht : chunkType ≠ 0
      · rw [if_pos ht, if_pos ht]
      · rw [if_neg ht, if_neg ht]
        by_cases hk : (i - 9) / 2 ≥ chunkLen
        · rw [if_pos hk, if_pos hk]
        · rw [if_neg hk, if_neg hk]
          by_cases hlow : chunkAddr + st.offset < startA
          · rw [if_pos hlow, if_pos hlow]
          · rw [if_neg hlow, if_neg hlow]
            by_cases hhigh : (chunkAddr + st.offset + chunkLen) % M32 > endA
            · rw [if_pos hhigh, if_pos hhigh]
            · rw [if_neg hhigh, if_neg hhigh]
              rw [readPairsGo_congr startA endA lineNo line chunkLen chunkAddr chunkType
                (line.length - i - 1) (line.length - (i + 2)) (i + 2) _
                (by omega) (by omega)]
  · rw [if_neg hi]
    cases hf : line.length - i with
    | zero => rfl
    | succ g =>
      simp only [readPairsGo]
      rw [if_neg hi]

/-! ### Hex digit characters -/

theorem hexU_spec : ∀ d : Fin 16,
    hexVal? (hexU d.val) = some d.val ∧ isSpace (hexU d.val) = false ∧
    hexU d.val ≠ '\n' := by decide

theorem hexVal?_hexU (d : Nat) (h : d < 16) : hexVal? (hexU d) = some d :=
  (hexU_spec ⟨d, h⟩).1

theorem isSpace_hexU (d : Nat) (h : d < 16) : isSpace (hexU d) = false :=
  (hexU_spec ⟨d, h⟩).2.1

theorem hexU_ne_nl (d : Nat) (h : d < 16) : hexU d ≠ '\n' :=
  (hexU_spec ⟨d, h⟩).2.2

theorem isHexDigit_hexU (d : Nat) (h : d < 16) : isHexDigit (hexU d) = true := by
  simp [isHexDigit, hexVal?_hexU d h]

theorem hv_hexU (d : Nat) (h : d < 16) : hv (hexU d) = d := by
  simp [hv, hexVal?_hexU d h]

/-- A character accepted by hexVal? is not scanf whitespace. -/
theorem hexVal?_not_space (c : Char) (v : Nat) (h : hexVal? c = some v) :
    isSpace c = false := by
  by_cases hs : isSpace c = true
  · exfalso
    have hc : c = ' ' ∨ c = '\t' ∨ c = '\n' ∨ c = '\x0b' ∨ c = '\x0c' ∨ c = '\r' := by
      simpa [isSpace] using hs
    rcases hc with hc | hc | hc | hc | hc | hc <;> subst hc <;> simp [hexVal?] at h
  · simpa using hs

theorem isHexDigit_not_space (c : Char) (h : isHexDigit c = true) :
    isSpace c = false := by
  rcases Option.isSome_iff_exists.mp (by simpa [isHexDigit] using h) with ⟨v, hv⟩
  exact hexVal?_not_space c v hv

theorem isHexDigit_hv (c : Char) (h : isHexDigit c = true) :
    hexVal? c = some (hv c) := by
  rcases Option.isSome_iff_exists.mp (by simpa [isHexDigit] using h) with ⟨v, hveq⟩
  simp [hv, hveq]

/-- A hex digit is not the newline character. -/
theorem isHexDigit_ne_nl (c : Char) (h : isHexDigit c = true) : c ≠ '\n' := by
  intro hc
  subst hc
  simp [isHexDigit, hexVal?] at h

/-! ### The scanHex conversions on digit strings -/

theorem skipWs_not_space (c : Char) (r : List Char) (h : isSpace c = false) :
    skipWs (c :: r) = c :: r := by
  unfold skipWs
  rw [h]
  simp

theorem scanHex_pair (c1 c2 : Char) (r : List Char)
    (h1 : isHexDigit c1 = true) (h2 : isHexDigit c2 = true) :
    scanHex 2 (c1 :: c2 :: r) = some (hv c1 * 16 + hv c2, r) := by
  simp [scanHex, skipWs_not_space c1 (c2 :: r) (isHexDigit_not_space c1 h1),
    isHexDigit_hv c1 h1, scanHexCore, isHexDigit_hv c2 h2]

theorem scanHex_quad (c1 c2 c3 c4 : Char) (r : List Char)
    (h1 : isHexDigit c1 = true) (h2 : isHexDigit c2 = true)
    (h3 : isHexDigit c3 = true) (h4 : isHexDigit c4 = true) :
    scanHex 4 (c1 :: c2 :: c3 :: c4 :: r) =
      some (((hv c1 * 16 + hv c2) * 16 + hv c3) * 16 + hv c4, r) := by
  simp [scanHex, skipWs_not_space c1 (c2 :: c3 :: c4 :: r) (isHexDigit_not_space c1 h1),
    isHexDigit_hv c1 h1, scanHexCore, isHexDigit_hv c2 h2, isHexDigit_hv c3 h3,
    isHexDigit_hv c4 h4]

theorem scanHex_hex2 (n : Nat) (h : n < 256) (r : List Char) :
    scanHex 2 (hex2 n ++ r) = some (n, r) := by
  have e : hex2 n ++ r = hexU (n / 16 % 16) :: hexU (n % 16) :: r := rfl
  rw [e, scanHex_pair _ _ r (isHexDigit_hexU _ (Nat.mod_lt _ (by omega)))
    (isHexDigit_hexU _ (Nat.mod_lt _ (by omega)))]
  rw [hv_hexU _ (Nat.mod_lt _ (by omega)), hv_hexU _ (Nat.mod_lt _ (by omega))]
  have e2 : n / 16 % 16 * 16 + n % 16 = n := by omega
  rw [e2]

theorem scanHex_hex4 (n : Nat) (h : n < 65536) (r : List Char) :
    scanHex 4 (hex4 n ++ r) = some (n, r) := by
  have e : hex4 n ++ r =
      hexU (n / 4096 % 16) :: hexU (n / 256 % 16) :: hexU (n / 16 % 16)
        :: hexU (n % 16) :: r := rfl
  rw [e, scanHex_quad _ _ _ _ r (isHexDigit_hexU _ (Nat.mod_lt _ (by omega)))
    (isHexDigit_hexU _ (Nat.mod_lt _ (by omega)))
    (isHexDigit_hexU _ (Nat.mod_lt _ (by omega)))
    (isHexDigit_hexU _ (Nat.mod_lt _ (by omega)))]
  rw [hv_hexU _ (Nat.mod_lt _ (by omega)), hv_hexU _ (Nat.mod_lt _ (by omega)),
    hv_hexU _ (Nat.mod_lt _ (by omega)), hv_hexU _ (Nat.mod_lt _ (by omega))]
  have e2 : ((n / 4096 % 16 * 16 + n / 256 % 16) * 16 + n / 16 % 16) * 16 + n % 16 = n := by
    omega
  rw [e2]

theorem parseHeader_std (len addr typ : Nat) (r : List Char)
    (hlen : len < 256) (haddr : addr < 65536) (htyp : typ < 256) :
    parseHeader (':' :: (hex2 len ++ (hex4 addr ++ (hex2 typ ++ r)))) =
      some (len, addr, typ) := by
  simp [parseHeader, scanHex_hex2 len hlen, scanHex_hex4 addr haddr,
    scanHex_hex2 typ htyp]


/-! ### Structure of pair lists -/

@[simp] theorem flatPairs_nil : flatPairs [] = [] := rfl

@[simp] theorem flatPairs_cons (p : Char × Char) (ps : List (Char × Char)) :
    flatPairs (p :: ps) = p.1 :: p.2 :: flatPairs ps := rfl

@[simp] theorem pairsVals_nil : pairsVals [] = [] := rfl

@[simp] theorem pairsVals_cons (p : Char × Char) (ps : List (Char × Char)) :
    pairsVals (p :: ps) = pairVal p :: pairsVals ps := rfl

@[simp] theorem length_flatPairs (ps : List (Char × Char)) :
    (flatPairs ps).length = 2 * ps.length := by
  induction ps with
  | nil => rfl
  | cons p ps ih => simp [flatPairs_cons, ih]; omega

@[simp] theorem storeStep_offset (startA a len : Nat) (st : DecSt) (kv : Nat × Nat) :
    (storeStep startA a len st kv).offset = st.offset := rfl

/-! ### The data loop on a standard data record line -/

/-- One-step evaluation of the data loop when the loop condition holds and
the pair at column i parses. -/
theorem readPairs_cont (startA endA lineNo : Nat) (line : List Char)
    (chunkLen chunkAddr chunkType i : Nat) (st : DecSt) (b : Nat) (r : List Char)
    (hi : i < line.length - 1) (hp : scanHex 2 (line.drop i) = some (b, r)) :
    readPairs startA endA lineNo line chunkLen chunkAddr chunkType i st =
      if chunkType ≠ 0 then (st, none)
      else if (i - 9) / 2 ≥ chunkLen then (st, none)
      else if chunkAddr + st.offset < startA then (st, some (RErr.rangeLow lineNo))
      else if (chunkAddr + st.offset + chunkLen) % M32 > endA then
        (st, some (RErr.rangeHigh lineNo))
      else
        readPairs startA endA lineNo line chunkLen chunkAddr chunkType (i + 2)
          (storeStep startA (chunkAddr + st.offset) chunkLen st ((i - 9) / 2, b)) := by
  rw [readPairs_eq, if_pos hi, hp]

/-- On a non-data record the loop stops right after parsing the first
pair. -/
theorem readPairs_nondata (startA endA lineNo : Nat) (line : List Char)
    (chunkLen chunkAddr chunkType : Nat) (st : DecSt) (pr : Nat × List Char)
    (ht : chunkType ≠ 0) (hp : scanHex 2 (line.drop 9) = some pr) :
    readPairs startA endA lineNo line chunkLen chunkAddr chunkType 9 st = (st, none) := by
  rw [readPairs_eq]
  by_cases hi : 9 < line.length - 1
  · rw [if_pos hi, hp]
    simp [ht]
  · rw [if_neg hi]

/-- The walk of the data loop over the data field of a standard data
record line whose range guards pass: every byte is stored in order.
The loop also parses the two checksum characters before stopping, so they
must be hex digits, but their value is discarded. -/
theorem readPairs_walk (startA endA lineNo : Nat) (line : List Char)
    (chunkLen chunkAddr : Nat) (c1 c2 : Char) (o : Nat)
    (hlen : line.length = 12 + 2 * chunkLen)
    (hc1 : isHexDigit c1 = true) (hc2 : isHexDigit c2 = true)
    (hlow : startA ≤ chunkAddr + o)
    (hhigh : (chunkAddr + o + chunkLen) % M32 ≤ endA) :
    ∀ (ps : List (Char × Char)) (k : Nat) (st : DecSt), st.offset = o →
      k + ps.length = chunkLen →
      line.drop (9 + 2 * k) = flatPairs ps ++ [c1, c2, '\n'] →
      (∀ p ∈ ps, hexPair p) →
      readPairs startA endA lineNo line chunkLen chunkAddr 0 (9 + 2 * k) st =
        (storeRun startA (chunkAddr + o) chunkLen k (pairsVals ps) st, none) := by
  intro ps
  induction ps with
  | nil =>
    intro k st ho hk hdrop _
    have hi : 9 + 2 * k < line.length - 1 := by omega
    have hp : scanHex 2 (line.drop (9 + 2 * k)) = some (hv c1 * 16 + hv c2, ['\n']) := by
      rw [hdrop]
      simpa using scanHex_pair c1 c2 ['\n'] hc1 hc2
    rw [readPairs_cont startA endA lineNo line chunkLen chunkAddr 0 (9 + 2 * k) st
      _ _ hi hp]
    simp only [List.length_nil] at hk
    rw [if_neg (show ¬ ((0:Nat) ≠ 0) by simp),
      if_pos (show (9 + 2 * k - 9) / 2 ≥ chunkLen by omega)]
    rfl
  | cons p ps ih =>
    intro k st ho hk hdrop hhex
    have hi : 9 + 2 * k < line.length - 1 := by
      have := hdrop
      simp at hk
      omega
    have hp1 : isHexDigit p.1 = true := (hhex p (by simp)).1
    have hp2 : isHexDigit p.2 = true := (hhex p (by simp)).2
    have hp : scanHex 2 (line.drop (9 + 2 * k)) =
        some (hv p.1 * 16 + hv p.2, flatPairs ps ++ [c1, c2, '\n']) := by
      rw [hdrop, flatPairs_cons]
      exact scanHex_pair p.1 p.2 _ hp1 hp2
    rw [readPairs_cont startA endA lineNo line chunkLen chunkAddr 0 (9 + 2 * k) st
      _ _ hi hp]
    have hkk : (9 + 2 * k - 9) / 2 = k := by omega
    rw [ho]
    rw [if_neg (show ¬ ((0:Nat) ≠ 0) by simp),
      if_neg (show ¬ (9 + 2 * k - 9) / 2 ≥ chunkLen by simp at hk; omega),
      if_neg (show ¬ chunkAddr + o < startA by omega),
      if_neg (show ¬ (chunkAddr + o + chunkLen) % M32 > endA by omega), hkk]
    have hstep : readPairs startA endA lineNo line chunkLen chunkAddr 0 (9 + 2 * k + 2)
        (storeStep startA (chunkAddr + o) chunkLen st (k, hv p.1 * 16 + hv p.2)) =
        (storeRun startA (chunkAddr + o) chunkLen (k + 1) (pairsVals ps)
          (storeStep startA (chunkAddr + o) chunkLen st (k, hv p.1 * 16 + hv p.2)), none) := by
      have h92 : 9 + 2 * k + 2 = 9 + 2 * (k + 1) := by omega
      rw [h92]
      apply ih (k + 1) _ (by simp [ho]) (by simp at hk; omega)
      · have hd2 : line.drop (9 + 2 * (k + 1)) = (line.drop (9 + 2 * k)).drop 2 := by
          rw [List.drop_drop]
          rw [show 9 + 2 * k + 2 = 9 + 2 * (k + 1) from by omega]
        rw [hd2, hdrop]
        simp [flatPairs_cons]
      · intro q hq
        exact hhex q (by simp [hq])
    rw [hstep]
    rfl


/-! ### Evaluation of readLine -/

/-- The C carriage-return strip inspects line[strlen(line)], which is the
terminating NUL of the string, never a carriage return: the conditional is
the identity on every line. -/
theorem stripCR_id (l : List Char) :
    (if l.getD l.length (Char.ofNat 0) = '\r' then l.take l.length else l) = l := by
  rw [if_neg]
  rw [List.getD_eq_getElem?_getD, List.getElem?_eq_none (Nat.le_refl _)]
  decide

/-- readLine on a line whose header fails to parse. -/
theorem readLine_badHeader (startA endA lineNo : Nat) (line : List Char) (st : DecSt)
    (hh : parseHeader line = none) :
    readLine startA endA lineNo line st = (st, some (RErr.header lineNo)) := by
  unfold readLine
  rw [stripCR_id]
  dsimp only
  rw [hh]

/-- readLine on a record that is neither type 02 nor type 04 runs the data
loop directly. -/
theorem readLine_header (startA endA lineNo : Nat) (line : List Char) (st : DecSt)
    (chunkLen chunkAddr chunkType : Nat)
    (hh : parseHeader line = some (chunkLen, chunkAddr, chunkType))
    (h2 : chunkType ≠ 2) (h4 : chunkType ≠ 4) :
    readLine startA endA lineNo line st =
      readPairs startA endA lineNo line chunkLen chunkAddr chunkType 9 st := by
  unfold readLine
  rw [stripCR_id]
  dsimp only
  rw [hh]
  dsimp only
  rw [if_neg h2]
  dsimp only
  rw [if_neg h4]

/-- readLine on a type-04 record whose extension value scans: the offset
becomes value * 65536 before the data loop runs. -/
theorem readLine_type4 (startA endA lineNo : Nat) (line : List Char) (st : DecSt)
    (chunkLen chunkAddr v : Nat) (r : List Char)
    (hh : parseHeader line = some (chunkLen, chunkAddr, 4))
    (hscan : scanHex 4 (line.drop 9) = some (v, r)) :
    readLine startA endA lineNo line st =
      readPairs startA endA lineNo line chunkLen chunkAddr 4 9
        { st with offset := v * 65536 } := by
  unfold readLine
  rw [stripCR_id]
  dsimp only
  rw [hh]
  dsimp only
  rw [if_neg (show ¬ ((4:Nat) = 2) by decide)]
  dsimp only
  rw [if_pos (show (4:Nat) = 4 from rfl), hscan]

/-- readLine on a type-02 record whose extension value scans: the offset
becomes value * 16 before the data loop runs. -/
theorem readLine_type2 (startA endA lineNo : Nat) (line : List Char) (st : DecSt)
    (chunkLen chunkAddr v : Nat) (r : List Char)
    (hh : parseHeader line = some (chunkLen, chunkAddr, 2))
    (hscan : scanHex 4 (line.drop 9) = some (v, r)) :
    readLine startA endA lineNo line st =
      readPairs startA endA lineNo line chunkLen chunkAddr 2 9
        { st with offset := v * 16 } := by
  unfold readLine
  rw [stripCR_id]
  dsimp only
  rw [hh]
  dsimp only
  rw [if_pos (show (2:Nat) = 2 from rfl), hscan]
  dsimp only
  rw [if_neg (show ¬ ((2:Nat) = 4) by decide)]


/-! ### Byte pairs and rendered lines -/

theorem hexPair_bytePair (b : Nat) : hexPair (bytePair b) := by
  exact ⟨isHexDigit_hexU _ (Nat.mod_lt _ (by omega)),
    isHexDigit_hexU _ (Nat.mod_lt _ (by omega))⟩

theorem pairVal_bytePair (b : Nat) (h : b < 256) : pairVal (bytePair b) = b := by
  unfold pairVal bytePair
  rw [hv_hexU _ (Nat.mod_lt _ (by omega)), hv_hexU _ (Nat.mod_lt _ (by omega))]
  omega

theorem flatten_map_hex2 (bytes : List Nat) :
    (bytes.map hex2).flatten = flatPairs (bytes.map bytePair) := by
  induction bytes with
  | nil => rfl
  | cons b bs ih =>
    simp only [List.map_cons, List.flatten_cons, flatPairs_cons, ih]
    rfl

theorem pairsVals_map_bytePair (bytes : List Nat) (h : ∀ b ∈ bytes, b < 256) :
    pairsVals (bytes.map bytePair) = bytes := by
  induction bytes with
  | nil => rfl
  | cons b bs ih =>
    simp only [List.map_cons, pairsVals_cons]
    rw [pairVal_bytePair b (h b (by simp)), ih (fun x hx => h x (by simp [hx]))]

@[simp] theorem hex2_length (n : Nat) : (hex2 n).length = 2 := rfl

@[simp] theorem hex4_length (n : Nat) : (hex4 n).length = 4 := rfl

theorem drop9_header (a b c r : List Char)
    (ha : a.length = 2) (hb : b.length = 4) (hc : c.length = 2) :
    (':' :: (a ++ (b ++ (c ++ r)))).drop 9 = r := by
  have e : ':' :: (a ++ (b ++ (c ++ r))) = (':' :: (a ++ b ++ c)) ++ r := by simp
  have hl : (':' :: (a ++ b ++ c)).length = 9 := by simp [ha, hb, hc]
  rw [e, List.drop_left' hl]

/-- checksum values are below 256. -/
theorem checksum_lt (buf : List Nat) (cl ca ct : Nat) : checksum buf cl ca ct < 256 := by
  unfold checksum
  omega

/-! ### readLine on the lines the encoder renders -/

/-- The rendered form of an ELA record, right associated. -/
theorem renderRec_ela (p : Nat) :
    renderRec (Rec.ela p) =
      ':' :: (hex2 2 ++ (hex4 0 ++ (hex2 4 ++ (hex4 p
        ++ (hex2 (checksum [p / 256 % 256, p % 256] 2 0 4) ++ ['\n']))))) := rfl

/-- The rendered form of a data record, right associated. -/
theorem renderRec_data (cs len : Nat) (bytes : List Nat) :
    renderRec (Rec.data cs len bytes) =
      ':' :: (hex2 len ++ (hex4 (cs % 65536) ++ (hex2 0 ++ (flatPairs (bytes.map bytePair)
        ++ (hex2 (checksum bytes len cs 0) ++ ['\n']))))) := by
  simp only [renderRec, List.append_assoc, flatten_map_hex2]

/-- The rendered form of the EOF record, right associated. -/
theorem renderRec_eof :
    renderRec Rec.eof =
      ':' :: (hex2 0 ++ (hex4 0 ++ (hex2 1 ++ [hexU 15, hexU 15, '\n']))) := rfl

/-- Decoding a rendered ELA record sets the offset to page * 65536 and
changes nothing else. -/
theorem readLine_elaRec (startA endA lineNo p : Nat) (st : DecSt) (hp : p < 65536) :
    readLine startA endA lineNo (renderRec (Rec.ela p)) st =
      ({ st with offset := p * 65536 }, none) := by
  rw [renderRec_ela]
  have hd9 : (':' :: (hex2 2 ++ (hex4 0 ++ (hex2 4 ++ (hex4 p
      ++ (hex2 (checksum [p / 256 % 256, p % 256] 2 0 4) ++ ['\n'])))))).drop 9 =
      hex4 p ++ (hex2 (checksum [p / 256 % 256, p % 256] 2 0 4) ++ ['\n']) :=
    drop9_header _ _ _ _ rfl rfl rfl
  rw [readLine_type4 startA endA lineNo _ st 2 0 p
    (hex2 (checksum [p / 256 % 256, p % 256] 2 0 4) ++ ['\n'])
    (parseHeader_std 2 0 4 _ (by omega) (by omega) (by omega))
    (by rw [hd9]; exact scanHex_hex4 p hp _)]
  apply readPairs_nondata _ _ _ _ _ _ _ _
    (((hv (hexU (p / 4096 % 16)) * 16 + hv (hexU (p / 256 % 16))),
      hexU (p / 16 % 16) :: hexU (p % 16) ::
        (hex2 (checksum [p / 256 % 256, p % 256] 2 0 4) ++ ['\n'])))
    (by decide)
  rw [hd9]
  show scanHex 2 (hexU (p / 4096 % 16) :: hexU (p / 256 % 16) :: _) = _
  rw [scanHex_pair _ _ _ (isHexDigit_hexU _ (Nat.mod_lt _ (by omega)))
    (isHexDigit_hexU _ (Nat.mod_lt _ (by omega)))]
  rfl

/-- Decoding the rendered EOF record changes nothing. -/
theorem readLine_eofRec (startA endA lineNo : Nat) (st : DecSt) :
    readLine startA endA lineNo (renderRec Rec.eof) st = (st, none) := by
  rw [renderRec_eof]
  rw [readLine_header startA endA lineNo _ st 0 0 1
    (parseHeader_std 0 0 1 _ (by omega) (by omega) (by omega))
    (by decide) (by decide)]
  apply readPairs_nondata _ _ _ _ _ _ _ _
    ((hv (hexU 15) * 16 + hv (hexU 15), ['\n'])) (by decide)
  rw [drop9_header (hex2 0) (hex4 0) (hex2 1) [hexU 15, hexU 15, '\n'] rfl rfl rfl]
  exact scanHex_pair _ _ _ (isHexDigit_hexU 15 (by omega)) (isHexDigit_hexU 15 (by omega))

/-- Decoding a rendered data record whose range guards pass stores exactly
its bytes. -/
theorem readLine_dataRec (startA endA lineNo cs len : Nat) (bytes : List Nat)
    (st : DecSt)
    (hlen : len < 256) (hbl : bytes.length = len) (hby : ∀ b ∈ bytes, b < 256)
    (hlow : startA ≤ cs % 65536 + st.offset)
    (hhigh : (cs % 65536 + st.offset + len) % M32 ≤ endA) :
    readLine startA endA lineNo (renderRec (Rec.data cs len bytes)) st =
      (storeRun startA (cs % 65536 + st.offset) len 0 bytes st, none) := by
  rw [renderRec_data]
  rw [readLine_header startA endA lineNo _ st len (cs % 65536) 0
    (parseHeader_std len (cs % 65536) 0 _ hlen (Nat.mod_lt _ (by omega)) (by omega))
    (by decide) (by decide)]
  have hck := checksum_lt bytes len cs 0
  have hw := readPairs_walk startA endA lineNo
    (':' :: (hex2 len ++ (hex4 (cs % 65536) ++ (hex2 0 ++ (flatPairs (bytes.map bytePair)
        ++ (hex2 (checksum bytes len cs 0) ++ ['\n']))))))
    len (cs % 65536)
    (hexU (checksum bytes len cs 0 / 16 % 16)) (hexU (checksum bytes len cs 0 % 16))
    st.offset
    (by simp [length_flatPairs, hbl]; omega)
    (isHexDigit_hexU _ (Nat.mod_lt _ (by omega)))
    (isHexDigit_hexU _ (Nat.mod_lt _ (by omega)))
    hlow hhigh
    (bytes.map bytePair) 0 st rfl (by simp [hbl])
    (by
      rw [show (9 + 2 * 0) = 9 from rfl,
        drop9_header (hex2 len) (hex4 (cs % 65536)) (hex2 0) _ rfl rfl rfl]
      rfl)
    (by
      intro p hp
      rcases List.mem_map.mp hp with ⟨b, _, rfl⟩
      exact hexPair_bytePair b)
  rw [show (9 : Nat) = 9 + 2 * 0 from rfl]
  rw [hw, pairsVals_map_bytePair bytes hby]


/-! ### State facts about storeRun -/

theorem getD_set (l : List Nat) (i j v : Nat) :
    (l.set i v).getD j 0 = if i = j ∧ i < l.length then v else l.getD j 0 := by
  simp only [List.getD_eq_getElem?_getD, List.getElem?_set]
  by_cases h : i = j
  · subst h
    by_cases h2 : i < l.length
    · simp [h2]
    · simp [h2, List.getElem?_eq_none (Nat.le_of_not_lt h2)]
  · simp [h]

@[simp] theorem storeRun_offset (startA a len : Nat) (vs : List Nat) :
    ∀ (k : Nat) (st : DecSt), (storeRun startA a len k vs st).offset = st.offset := by
  induction vs with
  | nil => intro k st; rfl
  | cons v vs ih => intro k st; rw [storeRun, ih]; rfl

@[simp] theorem storeRun_buf_length (startA a len : Nat) (vs : List Nat) :
    ∀ (k : Nat) (st : DecSt), (storeRun startA a len k vs st).buf.length = st.buf.length := by
  induction vs with
  | nil => intro k st; rfl
  | cons v vs ih =>
    intro k st
    rw [storeRun, ih]
    simp [storeStep]

/-- Pointwise description of the buffer after a run of in-bounds stores
(the no-wrap hypothesis makes every store index exact). -/
theorem storeRun_buf_getD (startA a len : Nat) (vs : List Nat) :
    ∀ (k : Nat) (st : DecSt) (j : Nat),
      startA ≤ a → a - startA + k + vs.length ≤ M32 →
      (storeRun startA a len k vs st).buf.getD j 0 =
        if a - startA + k ≤ j ∧ j < a - startA + k + vs.length ∧ j < st.buf.length
        then vs.getD (j - (a - startA + k)) 0
        else st.buf.getD j 0 := by
  induction vs with
  | nil =>
    intro k st j _ _
    rw [if_neg (by simp only [List.length_nil]; omega)]
    rfl
  | cons v vs ih =>
    intro k st j hsa hnw
    simp only [List.length_cons] at hnw
    rw [storeRun, ih (k + 1) _ j hsa (by omega)]
    have hidx : (a - startA + k) % M32 = a - startA + k := by
      apply Nat.mod_eq_of_lt
      omega
    have hbl : (storeStep startA a len st (k, v)).buf.length = st.buf.length := by
      simp [storeStep]
    rw [hbl]
    have hset : (storeStep startA a len st (k, v)).buf.getD j 0 =
        if a - startA + k = j ∧ a - startA + k < st.buf.length then v
        else st.buf.getD j 0 := by
      show (st.buf.set ((a - startA + k) % M32) v).getD j 0 = _
      rw [hidx, getD_set]
    by_cases hj1 : a - startA + (k + 1) ≤ j ∧ j < a - startA + (k + 1) + vs.length
        ∧ j < st.buf.length
    · rw [if_pos hj1, if_pos (by simp only [List.length_cons]; omega)]
      have hje : j - (a - startA + k) = (j - (a - startA + (k + 1))) + 1 := by omega
      rw [hje, List.getD_cons_succ]
    · rw [if_neg hj1, hset]
      by_cases hj2 : a - startA + k = j ∧ a - startA + k < st.buf.length
      · rw [if_pos hj2, if_pos (by simp only [List.length_cons]; omega)]
        have hje : j - (a - startA + k) = 0 := by omega
        rw [hje, List.getD_cons_zero]
      · rw [if_neg hj2, if_neg (by simp only [List.length_cons]; omega)]

/-! ### The line loop -/

theorem readLines_append (startA endA : Nat) (A B : List (List Char)) :
    ∀ (n : Nat) (st : DecSt),
      readLines startA endA (A ++ B) n st =
        match readLines startA endA A n st with
        | (st1, none) => readLines startA endA B (n + A.length) st1
        | (st1, some e) => (st1, some e) := by
  induction A with
  | nil => intro n st; simp [readLines]
  | cons l ls ih =>
    intro n st
    rw [List.cons_append, readLines, readLines]
    cases hl : readLine startA endA (n + 1) l st with
    | mk st1 err =>
      cases err with
      | none =>
        simp only
        rw [ih (n + 1) st1]
        have hn : n + 1 + ls.length = n + (ls.length + 1) := by omega
        rw [hn]
        rfl
      | some e => rfl

/-! ### The fgets line splitter on well-formed streams -/

theorem fgetsLine_exact (body : List Char) :
    ∀ (f : Nat) (rest : List Char), body.length < f → '\n' ∉ body →
      fgetsLine f (body ++ '\n' :: rest) = (body ++ ['\n'], rest) := by
  induction body with
  | nil =>
    intro f rest hf _
    cases f with
    | zero => omega
    | succ g => simp [fgetsLine]
  | cons c b ih =>
    intro f rest hf hnl
    cases f with
    | zero => simp at hf
    | succ g =>
      have hc : ¬ c = '\n' := by simp at hnl; tauto
      simp only [List.cons_append, fgetsLine, if_neg hc]
      simp only [List.append_eq]
      rw [ih g rest (by simp at hf; omega) (by simp at hnl; tauto)]

theorem fgetsSplitGo_lines (ls : List (List Char)) :
    ∀ (f : Nat), (∀ l ∈ ls, goodLine l) → (List.flatten ls).length ≤ f →
      fgetsSplitGo f ls.flatten = ls := by
  induction ls with
  | nil => intro f _ _; cases f <;> rfl
  | cons l ls ih =>
    intro f hgood hf
    rcases hgood l (by simp) with ⟨body, hl, hblen, hbnl⟩
    subst hl
    have hstream : ((body ++ ['\n']) :: ls).flatten = body ++ '\n' :: ls.flatten := by
      simp
    cases f with
    | zero =>
      exfalso
      rw [hstream] at hf
      simp at hf
    | succ g =>
      rw [hstream]
      have hfl : fgetsLine 522 (body ++ '\n' :: ls.flatten) = (body ++ ['\n'], ls.flatten) :=
        fgetsLine_exact body 522 ls.flatten (by omega) hbnl
      have hrec : fgetsSplitGo g ls.flatten = ls := by
        apply ih g (fun x hx => hgood x (by simp [hx]))
        rw [hstream] at hf
        simp at hf ⊢
        omega
      cases body with
      | nil =>
        simp only [List.nil_append] at hfl ⊢
        show (fgetsLine 522 ('\n' :: ls.flatten)).1
            :: fgetsSplitGo g (fgetsLine 522 ('\n' :: ls.flatten)).2 = ([] ++ ['\n']) :: ls
        rw [hfl]
        simp [hrec]
      | cons c b2 =>
        simp only [List.cons_append] at hfl ⊢
        show (fgetsLine 522 (c :: (b2 ++ '\n' :: ls.flatten))).1
            :: fgetsSplitGo g (fgetsLine 522 (c :: (b2 ++ '\n' :: ls.flatten))).2
            = ((c :: b2) ++ ['\n']) :: ls
        rw [hfl]
        simp [hrec]

/-- On a stream that is a concatenation of well-formed lines, the fgets
loop recovers exactly those lines. -/
theorem fgetsSplit_flatten (ls : List (List Char)) (hgood : ∀ l ∈ ls, goodLine l) :
    fgetsSplit ls.flatten = ls := by
  unfold fgetsSplit
  exact fgetsSplitGo_lines ls _ hgood (Nat.le_refl _)


/-! ### Well-formedness of rendered lines -/

theorem nl_not_mem_hex2 (n : Nat) : '\n' ∉ hex2 n := by
  intro h
  rcases List.mem_pair.mp h with h1 | h1 <;>
    exact hexU_ne_nl _ (Nat.mod_lt _ (by omega)) h1.symm

theorem nl_not_mem_hex4 (n : Nat) : '\n' ∉ hex4 n := by
  intro h
  simp only [hex4, List.mem_cons, List.mem_singleton, List.not_mem_nil, or_false] at h
  rcases h with h1 | h1 | h1 | h1 <;>
    exact hexU_ne_nl _ (Nat.mod_lt _ (by omega)) h1.symm

theorem nl_not_mem_flatPairs (bytes : List Nat) :
    '\n' ∉ flatPairs (bytes.map bytePair) := by
  induction bytes with
  | nil => simp [flatPairs]
  | cons b bs ih =>
    intro h
    simp only [List.map_cons, flatPairs_cons, List.mem_cons] at h
    rcases h with h1 | h1 | h1
    · exact hexU_ne_nl _ (Nat.mod_lt _ (by omega)) h1.symm
    · exact hexU_ne_nl _ (Nat.mod_lt _ (by omega)) h1.symm
    · exact ih h1

/-- Every line the encoder renders is a newline-terminated line that fgets
reads in one piece, provided the record's data field is at most 255
bytes. -/
theorem goodLine_renderRec (r : Rec)
    (h : ∀ cs len bytes, r = Rec.data cs len bytes → bytes.length ≤ 255) :
    goodLine (renderRec r) := by
  cases r with
  | ela p =>
    refine ⟨':' :: (hex2 2 ++ hex4 0 ++ hex2 4 ++ hex4 p
      ++ hex2 (checksum [p / 256 % 256, p % 256] 2 0 4)), by simp [renderRec], by simp, ?_⟩
    intro hmem
    simp only [List.mem_cons, List.mem_append] at hmem
    rcases hmem with h1 | ((((h1 | h1) | h1) | h1) | h1)
    · simp at h1
    · exact nl_not_mem_hex2 _ h1
    · exact nl_not_mem_hex4 _ h1
    · exact nl_not_mem_hex2 _ h1
    · exact nl_not_mem_hex4 _ h1
    · exact nl_not_mem_hex2 _ h1
  | data cs len bytes =>
    refine ⟨':' :: (hex2 len ++ hex4 (cs % 65536) ++ hex2 0
      ++ flatPairs (bytes.map bytePair) ++ hex2 (checksum bytes len cs 0)),
      ?_, ?_, ?_⟩
    · rw [renderRec_data]
      simp [List.append_assoc]
    · have := h cs len bytes rfl
      simp [length_flatPairs]
      omega
    · intro hmem
      simp only [List.mem_cons, List.mem_append] at hmem
      rcases hmem with h1 | ((((h1 | h1) | h1) | h1) | h1)
      · simp at h1
      · exact nl_not_mem_hex2 _ h1
      · exact nl_not_mem_hex4 _ h1
      · exact nl_not_mem_hex2 _ h1
      · exact nl_not_mem_flatPairs _ h1
      · exact nl_not_mem_hex2 _ h1
  | eof =>
    exact ⟨':' :: (hex2 0 ++ hex4 0 ++ hex2 1 ++ [hexU 15, hexU 15]),
      by simp [renderRec], by simp, by decide⟩

/-! ### Helper facts for buffer contents -/

theorem getD_lt256 (buf : List Nat) (hby : ∀ b ∈ buf, b < 256) (i : Nat) :
    buf.getD i 0 < 256 := by
  by_cases hi : i < buf.length
  · rw [List.getD_eq_getElem?_getD, List.getElem?_eq_getElem hi]
    exact hby _ (List.getElem_mem hi)
  · rw [List.getD_eq_getElem?_getD, List.getElem?_eq_none (by omega)]
    simp

theorem rangeMap_getD (len : Nat) (f : Nat → Nat) (k : Nat) (hk : k < len) :
    (((List.range len).map f).getD k 0) = f k := by
  rw [List.getD_eq_getElem?_getD, List.getElem?_map]
  rw [List.getElem?_range hk]
  rfl


/-! ### Decoding the rendered chunk stream -/

/-- Decoding the lines rendered for writeChunks from any state whose
offset agrees with the current cur_ela page succeeds and copies the source
bytes for [cs, endA) into the destination window, leaving everything else
unchanged. -/
theorem decode_chunks (buf : List Nat) (startA endA : Nat)
    (hend : endA < M32) (hby : ∀ b ∈ buf, b < 256) :
    ∀ (fuel : Nat), ∀ (cs ce : Nat) (st : DecSt) (n : Nat),
      endA - cs ≤ fuel →
      startA ≤ cs → cs < endA →
      (ce ≤ 65535 → st.offset = ce * 65536) →
      ∃ st2,
        readLines startA endA ((writeChunks buf startA endA cs ce).map renderRec) n st
          = (st2, none) ∧
        st2.buf.length = st.buf.length ∧
        (∀ j, j < st.buf.length →
          st2.buf.getD j 0 =
            if cs - startA ≤ j ∧ j < endA - startA then buf.getD j 0
            else st.buf.getD j 0) := by
  have hm : M32 = 4294967296 := rfl
  intro fuel
  induction fuel with
  | zero => intro cs ce st n hf hsc hcs hoff; omega
  | succ f ih =>
    intro cs ce st n hf hsc hcs hoff
    rw [writeChunks_eq, if_pos hcs]
    have hl1 : 1 ≤ chunkLenF endA cs := chunkLenF_pos endA cs hcs
    have hl32 : chunkLenF endA cs ≤ 32 := chunkLenF_le32 endA cs hcs
    have hlend : cs + chunkLenF endA cs ≤ endA := chunkLenF_le_end endA cs hcs
    have hpage : cs / 65536 ≤ 65535 := by omega
    set len := chunkLenF endA cs with hlendef
    set bytes := (List.range len).map (fun k => buf.getD (cs - startA + k) 0) with hbdef
    set pre : List Rec := if ce ≠ cs / 65536 then
        [Rec.ela (cs / 65536), Rec.data cs len bytes]
      else [Rec.data cs len bytes] with hpredef
    -- the effect of the data line from any state st1 with the right offset
    have hdata : ∀ (st1 : DecSt) (m : Nat), st1.offset = cs / 65536 * 65536 →
        readLine startA endA m (renderRec (Rec.data cs len bytes)) st1 =
        (storeRun startA cs len 0 bytes st1, none) := by
      intro st1 m hoff1
      have haddr : cs % 65536 + st1.offset = cs := by rw [hoff1]; omega
      have hres := readLine_dataRec startA endA m cs len bytes st1
        (by omega)
        (by simp [hbdef])
        (by
          intro b hb
          rw [hbdef] at hb
          rcases List.mem_map.mp hb with ⟨k, _, rfl⟩
          exact getD_lt256 buf hby _)
        (by rw [haddr]; omega)
        (by
          rw [haddr, Nat.mod_eq_of_lt (by omega)]
          omega)
      rw [hres, haddr]
    -- pointwise buffer contents after the chunk stores
    have hgetD : ∀ (st1 : DecSt), st1.buf = st.buf → ∀ j, j < st.buf.length →
        (storeRun startA cs len 0 bytes st1).buf.getD j 0 =
        if cs - startA ≤ j ∧ j < cs + len - startA then buf.getD j 0
        else st.buf.getD j 0 := by
      intro st1 hb1 j hj
      have hnw : cs - startA + 0 + bytes.length ≤ M32 := by
        simp [hbdef]
        omega
      rw [storeRun_buf_getD startA cs len bytes 0 st1 j hsc hnw, hb1]
      have hblen : bytes.length = len := by simp [hbdef]
      by_cases hjr : cs - startA + 0 ≤ j ∧ j < cs - startA + 0 + bytes.length
          ∧ j < st.buf.length
      · rw [if_pos hjr]
        rcases hjr with ⟨hj1, hj2, _⟩
        rw [hblen] at hj2
        have hjlen : j - (cs - startA + 0) < len := by omega
        rw [hbdef, rangeMap_getD _ _ _ hjlen]
        have hji : cs - startA + (j - (cs - startA + 0)) = j := by omega
        rw [hji, if_pos (by omega)]
      · rw [hblen] at hjr
        rw [if_neg (by rw [hblen]; exact hjr)]
        rw [if_neg (by
          intro hcon
          exact hjr (by omega))]
    -- the combined effect of the (possibly ELA-prefixed) chunk lines
    have hpre : ∀ (m : Nat), ∃ st2,
        readLines startA endA (pre.map renderRec) m st = (st2, none) ∧
        st2.offset = cs / 65536 * 65536 ∧
        st2.buf.length = st.buf.length ∧
        (∀ j, j < st.buf.length →
          st2.buf.getD j 0 =
            if cs - startA ≤ j ∧ j < cs + len - startA then buf.getD j 0
            else st.buf.getD j 0) := by
      intro m
      rw [hpredef]
      by_cases hce : ce ≠ cs / 65536
      · rw [if_pos hce]
        simp only [List.map_cons, List.map_nil]
        rw [readLines, readLine_elaRec startA endA (m + 1) (cs / 65536) st (by omega)]
        simp only
        rw [readLines, hdata { st with offset := cs / 65536 * 65536 } (m + 2) rfl]
        simp only [readLines]
        refine ⟨_, rfl, by simp, by simp, ?_⟩
        intro j hj
        exact hgetD { st with offset := cs / 65536 * 65536 } rfl j hj
      · rw [if_neg hce]
        simp only [List.map_cons, List.map_nil]
        have hoffst : st.offset = cs / 65536 * 65536 := by
          have hcee : ce = cs / 65536 := by tauto
          rw [← hcee]
          exact hoff (by omega)
        rw [readLines, hdata st (m + 1) hoffst]
        simp only [readLines]
        refine ⟨_, rfl, by simp [hoffst], by simp, ?_⟩
        intro j hj
        exact hgetD st rfl j hj
    -- split on whether this was the last chunk
    rw [List.map_append, readLines_append]
    rcases hpre n with ⟨st2, hrun, hoff2, hlen2, hget2⟩
    have hfull : (match readLines startA endA (pre.map renderRec) n st with
        | (st1, none) => readLines startA endA
            ((writeChunks buf startA endA (cs + len) (cs / 65536)).map renderRec)
            (n + (pre.map renderRec).length) st1
        | (st1, some e) => (st1, some e)) =
        readLines startA endA
          ((writeChunks buf startA endA (cs + len) (cs / 65536)).map renderRec)
          (n + (pre.map renderRec).length) st2 := by
      rw [hrun]
    rw [hfull]
    by_cases hlast : cs + len < endA
    · rcases ih (cs + len) (cs / 65536) st2 (n + (pre.map renderRec).length)
        (by omega) (by omega) hlast (fun _ => hoff2) with ⟨st3, hrun3, hlen3, hget3⟩
      refine ⟨st3, hrun3, by omega, ?_⟩
      intro j hj
      rw [hget3 j (by omega), hget2 j hj]
      by_cases hj1 : cs + len - startA ≤ j ∧ j < endA - startA
      · rw [if_pos hj1, if_pos (by omega)]
      · rw [if_neg hj1]
        by_cases hj2 : cs - startA ≤ j ∧ j < cs + len - startA
        · rw [if_pos hj2, if_pos (by omega)]
        · rw [if_neg hj2, if_neg (by omega)]
    · have hrest : writeChunks buf startA endA (cs + len) (cs / 65536) = [] := by
        rw [writeChunks_eq, if_neg (by omega)]
      rw [hrest]
      refine ⟨st2, by simp [readLines], hlen2, ?_⟩
      intro j hj
      rw [hget2 j hj]
      have hee : cs + len = endA := by omega
      rw [hee]


/-! ### Shape of the records writeChunks emits -/

theorem writeChunks_mem_data (buf : List Nat) (startA endA : Nat) :
    ∀ (fuel cs ce : Nat), endA - cs ≤ fuel →
    ∀ (cs2 len2 : Nat) (bytes2 : List Nat),
      Rec.data cs2 len2 bytes2 ∈ writeChunks buf startA endA cs ce →
      cs2 < endA ∧ len2 = chunkLenF endA cs2 ∧
      bytes2 = (List.range len2).map (fun k => buf.getD (cs2 - startA + k) 0) := by
  intro fuel
  induction fuel with
  | zero =>
    intro cs ce hf cs2 len2 bytes2 hmem
    rw [writeChunks_eq, if_neg (by omega)] at hmem
    simp at hmem
  | succ f ih =>
    intro cs ce hf cs2 len2 bytes2 hmem
    by_cases hcs : cs < endA
    · rw [writeChunks_eq, if_pos hcs] at hmem
      have hl1 : 1 ≤ chunkLenF endA cs := chunkLenF_pos endA cs hcs
      have htail : Rec.data cs2 len2 bytes2 ∈
          writeChunks buf startA endA (cs + chunkLenF endA cs) (cs / 65536) →
          cs2 < endA ∧ len2 = chunkLenF endA cs2 ∧
          bytes2 = (List.range len2).map (fun k => buf.getD (cs2 - startA + k) 0) :=
        ih (cs + chunkLenF endA cs) (cs / 65536) (by omega) cs2 len2 bytes2
      have hhead : Rec.data cs2 len2 bytes2 =
          Rec.data cs (chunkLenF endA cs)
            ((List.range (chunkLenF endA cs)).map (fun k => buf.getD (cs - startA + k) 0)) →
          cs2 < endA ∧ len2 = chunkLenF endA cs2 ∧
          bytes2 = (List.range len2).map (fun k => buf.getD (cs2 - startA + k) 0) := by
        intro he
        injection he with h1 h2 h3
        subst h1; subst h2; subst h3
        exact ⟨hcs, rfl, rfl⟩
      rcases List.mem_append.mp hmem with hmem1 | hmem1
      · by_cases hce : ce ≠ cs / 65536
        · rw [if_pos hce] at hmem1
          rcases List.mem_cons.mp hmem1 with he | hmem2
          · simp at he
          · rcases List.mem_cons.mp hmem2 with he | hmem3
            · exact hhead he
            · simp at hmem3
        · rw [if_neg hce] at hmem1
          rcases List.mem_cons.mp hmem1 with he | hmem2
          · exact hhead he
          · simp at hmem2
      · exact htail hmem1
    · rw [writeChunks_eq, if_neg hcs] at hmem
      simp at hmem

/-- List equality from equal lengths and pointwise getD. -/
theorem list_ext_getD (l1 l2 : List Nat) (hlen : l1.length = l2.length)
    (hget : ∀ j, j < l1.length → l1.getD j 0 = l2.getD j 0) : l1 = l2 := by
  apply List.ext_getElem hlen
  intro i h1 h2
  have := hget i h1
  rwa [List.getD_eq_getElem?_getD, List.getD_eq_getElem?_getD,
    List.getElem?_eq_getElem h1, List.getElem?_eq_getElem h2] at this

/-- All lines rendered for an ihex_write record stream are good fgets
lines. -/
theorem goodLine_ihexWrite (buf : List Nat) (startA endA : Nat) :
    ∀ l ∈ (ihex_write buf startA endA).map renderRec, goodLine l := by
  intro l hl
  rcases List.mem_map.mp hl with ⟨r, hr, rfl⟩
  apply goodLine_renderRec
  intro cs2 len2 bytes2 hre
  subst hre
  unfold ihex_write at hr
  rcases List.mem_append.mp hr with hr1 | hr1
  · rcases writeChunks_mem_data buf startA endA (endA - startA) startA _ (Nat.le_refl _)
      cs2 len2 bytes2 hr1 with ⟨hlt, hlen, hbytes⟩
    rw [hbytes]
    simp
    rw [hlen]
    have := chunkLenF_le32 endA cs2 hlt
    omega
  · simp at hr1

/-- C1.  Round-trip: for every window start < end (end within the range of
the C type unsigned int), every source buffer of byte values for exactly
that window, and every same-sized destination buffer, encoding with
ihex_write and decoding the produced text with ihex_read over the same
window succeeds and reproduces the source bytes exactly, including when
the window crosses one or more 64KiB boundaries (the general bound endA <
2^32 covers all such windows). -/
theorem C1_roundtrip (startA endA : Nat) (buf dest : List Nat)
    (hlt : startA < endA) (hend : endA < M32)
    (hbuflen : buf.length = endA - startA)
    (hby : ∀ b ∈ buf, b < 256)
    (hdest : dest.length = endA - startA) :
    (ihex_read (renderAll (ihex_write buf startA endA)) dest startA endA).2 = none ∧
    (ihex_read (renderAll (ihex_write buf startA endA)) dest startA endA).1.buf = buf := by
  have hsplit : fgetsSplit (renderAll (ihex_write buf startA endA)) =
      (ihex_write buf startA endA).map renderRec := by
    unfold renderAll
    exact fgetsSplit_flatten _ (goodLine_ihexWrite buf startA endA)
  have hread : ihex_read (renderAll (ihex_write buf startA endA)) dest startA endA =
      readLines startA endA ((ihex_write buf startA endA).map renderRec) 0
        ⟨0, 0, dest, [], []⟩ := by
    unfold ihex_read
    rw [hsplit]
  rcases decode_chunks buf startA endA hend hby (endA - startA) startA
      (if endA > 65535 then 4294967295 else 0) ⟨0, 0, dest, [], []⟩ 0
      (Nat.le_refl _) (Nat.le_refl _) hlt
      (by
        intro hle
        by_cases he : endA > 65535
        · rw [if_pos he] at hle; omega
        · rw [if_neg he]) with ⟨st2, hrun, hlen2, hget2⟩
  have heof : readLines startA endA ((ihex_write buf startA endA).map renderRec) 0
      ⟨0, 0, dest, [], []⟩ = (st2, none) := by
    unfold ihex_write
    rw [List.map_append, readLines_append, hrun]
    simp only [List.map_cons, List.map_nil]
    rw [readLines, readLine_eofRec]
    simp only [readLines]
  constructor
  · rw [hread, heof]
  · rw [hread, heof]
    simp only
    apply list_ext_getD
    · simp at hlen2
      omega
    · intro j hj
      have hj2 : j < dest.length := by
        simp at hlen2
        omega
      rw [hget2 j (by simpa using hj2)]
      rw [if_pos (by
        constructor
        · omega
        · simp at hlen2
          omega)]

/-- Witness for C1 at a window crossing the 64KiB boundary. -/
theorem C1_roundtrip_witness :
    (65534 < 65538 ∧ 65538 < M32 ∧
      ([1, 2, 3, 4] : List Nat).length = 65538 - 65534 ∧
      (∀ b ∈ ([1, 2, 3, 4] : List Nat), b < 256) ∧
      ([9, 9, 9, 9] : List Nat).length = 65538 - 65534) ∧
    (ihex_read (renderAll (ihex_write [1, 2, 3, 4] 65534 65538)) [9, 9, 9, 9]
        65534 65538).2 = none ∧
    (ihex_read (renderAll (ihex_write [1, 2, 3, 4] 65534 65538)) [9, 9, 9, 9]
        65534 65538).1.buf = [1, 2, 3, 4] :=
  ⟨⟨by decide, by decide, by decide, by decide, by decide⟩,
    C1_roundtrip 65534 65538 [1, 2, 3, 4] [9, 9, 9, 9]
      (by decide) (by decide) (by decide) (by decide) (by decide)⟩


/-! ### Claims about the checksum and the emitted records -/

theorem recSumOk_all (r : Rec) : recSumOk r := by
  cases r with
  | ela p =>
    simp only [recSumOk, recLen, recAddr, recType, recData, recCk, checksum,
      List.sum_cons, List.sum_nil]
    omega
  | data cs len bytes =>
    simp only [recSumOk, recLen, recAddr, recType, recData, recCk, checksum]
    omega
  | eof =>
    simp only [recSumOk, recLen, recAddr, recType, recData, recCk]
    decide

/-- C2 counterexample.  The example in the specification claims the
checksum byte 0xCB, but the encoder emits 0x97 for the record
:03000000112233: the rendered text differs from the claimed text. -/
theorem C2_counterexample :
    renderAll (ihex_write [0x11, 0x22, 0x33] 0 3) ≠
      (":03000000112233CB\n:00000001FF\n").data := by
  decide

/-- C2 as amended: encoding the buffer [0x11, 0x22, 0x33] with start 0 and
end 3 produces exactly ":0300000011223397\n:00000001FF\n" (checksum byte
0x97 = (~(3+0+0+0+0x11+0x22+0x33)+1) & 0xff), and decoding that text with
start 0 and end 3 writes [0x11, 0x22, 0x33] into the destination buffer
and returns 3. -/
theorem C2_example :
    renderAll (ihex_write [0x11, 0x22, 0x33] 0 3) =
      (":0300000011223397\n:00000001FF\n").data ∧
    (ihex_read ((":0300000011223397\n:00000001FF\n").data) [0, 0, 0] 0 3).1.buf =
      [0x11, 0x22, 0x33] ∧
    (ihex_read ((":0300000011223397\n:00000001FF\n").data) [0, 0, 0] 0 3).2 = none ∧
    ihex_read_ret ((":0300000011223397\n:00000001FF\n").data) [0, 0, 0] 0 3 = 3 :=
  ⟨by decide, by decide, by decide, by decide⟩

/-- C3.  The checksum function returns the 8-bit two's-complement value
making length + low address byte + high address byte + type + data bytes
+ checksum vanish modulo 256, for every byte sequence, length field,
address and type tag; consequently every record the encoder emits (its
length, address, type and data fields together with the checksum byte it
renders, recCk) satisfies the same sum-to-zero equation. -/
theorem C3_checksum :
    (∀ (data : List Nat) (len addr typ : Nat),
      (len + addr % 256 + addr / 256 % 256 + typ + data.sum
        + checksum data len addr typ) % 256 = 0) ∧
    (∀ (buf : List Nat) (startA endA : Nat),
      ∀ r ∈ ihex_write buf startA endA, recSumOk r) := by
  constructor
  · intro data len addr typ
    unfold checksum
    omega
  · intro buf startA endA r _
    exact recSumOk_all r

/-- Witness for C3 on a concrete emitted record. -/
theorem C3_checksum_witness :
    Rec.data 0 2 [17, 34] ∈ ihex_write [17, 34] 0 2 ∧
    recSumOk (Rec.data 0 2 [17, 34]) :=
  ⟨by decide, C3_checksum.2 [17, 34] 0 2 (Rec.data 0 2 [17, 34]) (by decide)⟩

/-- C6.  Every Data record the encoder emits has a length of at most 32
bytes, and its byte range (the 16-bit record address through record
address plus length) stays inside one 64KiB page, for every start, end
and buffer content with start < end. -/
theorem C6_chunking (buf : List Nat) (startA endA : Nat) (hlt : startA < endA)
    (cs2 len2 : Nat) (bytes2 : List Nat)
    (hmem : Rec.data cs2 len2 bytes2 ∈ ihex_write buf startA endA) :
    len2 ≤ 32 ∧ cs2 % 65536 + len2 ≤ 65536 := by
  unfold ihex_write at hmem
  rcases List.mem_append.mp hmem with h1 | h1
  · rcases writeChunks_mem_data buf startA endA (endA - startA) startA _ (Nat.le_refl _)
      _ _ _ h1 with ⟨hlt2, hlen, _⟩
    subst hlen
    exact ⟨chunkLenF_le32 endA cs2 hlt2, chunkLenF_page endA cs2⟩
  · simp at h1

/-- Witness for C6 on a concrete emitted record. -/
theorem C6_chunking_witness :
    (0 < 2 ∧ Rec.data 0 2 [5, 6] ∈ ihex_write [5, 6] 0 2) ∧
    (2 ≤ 32 ∧ 0 % 65536 + 2 ≤ 65536) :=
  ⟨⟨by decide, by decide⟩,
    C6_chunking [5, 6] 0 2 (by decide) 0 2 [5, 6] (by decide)⟩

/-- C8.  The carriage-return strip in ihex_read is dead code: the C
condition line[strlen(line)] == '\r' inspects the terminating NUL, so a
trailing CR is never stripped (first conjunct, the modelled conditional is
the identity on every line), and a CRLF line does not always decode like
the same line with only LF: the headerless-checksum EOF record
":00000001" decodes cleanly with an LF ending (return 0) but makes the
data loop parse the CR and fail with a CRLF ending (return -1). -/
theorem C8_crlf_divergence :
    (∀ l : List Char,
      (if l.getD l.length (Char.ofNat 0) = '\r' then l.take l.length else l) = l) ∧
    ihex_read_ret (":00000001\r\n").data [0] 0 1 = -1 ∧
    ihex_read_ret (":00000001\n").data [0] 0 1 = 0 :=
  ⟨stripCR_id, by decide, by decide⟩


/-! ### The range guards of the data loop -/

/-- A data record with a parseable first pair and a nonzero length field
whose range guard fails aborts the loop before any store. -/
theorem readPairs_range_fail (startA endA lineNo : Nat) (line : List Char)
    (chunkLen chunkAddr : Nat) (st : DecSt) (b : Nat) (r : List Char)
    (hi : 9 < line.length - 1)
    (hp : scanHex 2 (line.drop 9) = some (b, r))
    (hlen : 1 ≤ chunkLen)
    (hbad : chunkAddr + st.offset < startA ∨
      (chunkAddr + st.offset + chunkLen) % M32 > endA) :
    readPairs startA endA lineNo line chunkLen chunkAddr 0 9 st =
      (st, some (if chunkAddr + st.offset < startA then RErr.rangeLow lineNo
                 else RErr.rangeHigh lineNo)) := by
  rw [readPairs_cont startA endA lineNo line chunkLen chunkAddr 0 9 st b r hi hp]
  rw [if_neg (show ¬ ((0:Nat) ≠ 0) by simp),
    if_neg (show ¬ (9 - 9) / 2 ≥ chunkLen by omega)]
  by_cases hlow : chunkAddr + st.offset < startA
  · rw [if_pos hlow, if_pos hlow]
  · rw [if_neg hlow, if_pos (by tauto), if_neg hlow]

/-- C4 as amended.  During decode, a Data record with a parseable first
data pair and a nonzero length field whose absolute address
(record address + offset) is below start, or whose absolute address plus
the record's full length field, computed in 32-bit unsigned arithmetic,
exceeds end, aborts the decode with the corresponding address-range error,
and neither the destination buffer nor the store history gains any byte of
that record; the upper bound check uses the record's length field, not a
per-byte remaining count. -/
theorem C4_range_error (startA endA : Nat) (pre rest : List (List Char))
    (bad : List Char) (st0 st : DecSt) (chunkLen chunkAddr b : Nat) (r : List Char)
    (hpre : readLines startA endA pre 0 st0 = (st, none))
    (hh : parseHeader bad = some (chunkLen, chunkAddr, 0))
    (hi : 9 < bad.length - 1)
    (hp : scanHex 2 (bad.drop 9) = some (b, r))
    (hlen : 1 ≤ chunkLen)
    (hbad : chunkAddr + st.offset < startA ∨
      (chunkAddr + st.offset + chunkLen) % M32 > endA) :
    readLines startA endA (pre ++ bad :: rest) 0 st0 =
      (st, some (if chunkAddr + st.offset < startA then RErr.rangeLow (pre.length + 1)
                 else RErr.rangeHigh (pre.length + 1))) ∧
    (readLines startA endA (pre ++ bad :: rest) 0 st0).1.writes = st.writes ∧
    (readLines startA endA (pre ++ bad :: rest) 0 st0).1.buf = st.buf := by
  have hmain : readLines startA endA (pre ++ bad :: rest) 0 st0 =
      (st, some (if chunkAddr + st.offset < startA then RErr.rangeLow (pre.length + 1)
                 else RErr.rangeHigh (pre.length + 1))) := by
    rw [readLines_append, hpre]
    simp only [Nat.zero_add]
    rw [readLines]
    rw [readLine_header startA endA (pre.length + 1) bad st chunkLen chunkAddr 0 hh
      (by decide) (by decide)]
    rw [readPairs_range_fail startA endA (pre.length + 1) bad chunkLen chunkAddr st b r
      hi hp hlen hbad]
  exact ⟨hmain, by rw [hmain], by rw [hmain]⟩

/-- Witness for C4 as amended, on the record :02000500 4142 (address 5,
length 2) with window [0, 3). -/
theorem C4_range_error_witness :
    (readLines 0 3 [] 0 ⟨0, 0, [0, 0, 0], [], []⟩ = (⟨0, 0, [0, 0, 0], [], []⟩, none) ∧
      parseHeader ((":0200050041427D\n").data) = some (2, 5, 0) ∧
      9 < ((":0200050041427D\n").data).length - 1 ∧
      scanHex 2 (((":0200050041427D\n").data).drop 9) =
        some (0x41, ('4' : Char) :: ('2' : Char) :: ('7' : Char) :: ('D' : Char) :: ['\n']) ∧
      1 ≤ 2 ∧
      (5 + (0:Nat) < 0 ∨ ((5:Nat) + 0 + 2) % M32 > 3)) ∧
    readLines 0 3 ([] ++ ((":0200050041427D\n").data) :: []) 0 ⟨0, 0, [0, 0, 0], [], []⟩ =
      (⟨0, 0, [0, 0, 0], [], []⟩,
        some (if (5:Nat) + (⟨0, 0, ([0, 0, 0] : List Nat), [], []⟩ : DecSt).offset < 0
          then RErr.rangeLow (([] : List (List Char)).length + 1)
          else RErr.rangeHigh (([] : List (List Char)).length + 1))) :=
  ⟨⟨by decide, by decide, by decide, by decide, by decide, by decide⟩,
    (C4_range_error 0 3 [] [] ((":0200050041427D\n").data) ⟨0, 0, [0, 0, 0], [], []⟩
      ⟨0, 0, [0, 0, 0], [], []⟩ 2 5 0x41
      (('4' : Char) :: ('2' : Char) :: ('7' : Char) :: ('D' : Char) :: ['\n'])
      (by decide) (by decide) (by decide) (by decide) (by decide) (by decide)).1⟩

/-- C4 counterexample.  A Data record carrying data bytes whose absolute
address plus length field, as exact integers, exceeds end (0xFFFFFFFF + 2
over a window ending at 3) decodes without any failure: the 32-bit guard
sum wraps around, so the decode succeeds and even records stores from the
offending record. -/
theorem C4_counterexample :
    (ihex_read ((":02000004FFFFFC\n:02FFFF0041427D\n").data) [0, 0, 0] 0 3).2 = none ∧
    (⟨4294967295, 2, 0, 4294967295, 0x41⟩ : WriteEv) ∈
      (ihex_read ((":02000004FFFFFC\n:02FFFF0041427D\n").data) [0, 0, 0] 0 3).1.writes ∧
    4294967295 + 2 > 3 :=
  ⟨by decide, by decide, by decide⟩


/-! ### Placement and count of Extended Linear Address records -/

theorem countEla_append (l1 l2 : List Rec) :
    countEla (l1 ++ l2) = countEla l1 + countEla l2 := by
  induction l1 with
  | nil => simp [countEla]
  | cons r l ih =>
    cases r with
    | ela p => simp only [List.cons_append, List.append_eq, countEla, ih]; omega
    | data cs len bytes => simp only [List.cons_append, List.append_eq, countEla, ih]
    | eof => simp only [List.cons_append, List.append_eq, countEla, ih]

theorem elaChainOk_ela_data (p cs len : Nat) (bytes : List Nat) (rest : List Rec)
    (cur : Option Nat) :
    elaChainOk (Rec.ela p :: Rec.data cs len bytes :: rest) cur =
      (decide (cs / 65536 = p) && decide (some p ≠ cur) && elaChainOk rest (some p)) := rfl

theorem elaChainOk_data_cons (cs len : Nat) (bytes : List Nat) (rest : List Rec)
    (cur : Option Nat) :
    elaChainOk (Rec.data cs len bytes :: rest) cur =
      (decide (some (cs / 65536) = cur) && elaChainOk rest cur) := rfl

theorem countEla_ela_data (p cs len : Nat) (bytes : List Nat) (rest : List Rec) :
    countEla (Rec.ela p :: Rec.data cs len bytes :: rest) = countEla rest + 1 := rfl

theorem countEla_data_cons (cs len : Nat) (bytes : List Nat) (rest : List Rec) :
    countEla (Rec.data cs len bytes :: rest) = countEla rest := rfl

theorem writeChunks_countEla (buf : List Nat) (startA endA : Nat) (hend : endA < M32) :
    ∀ (fuel cs ce : Nat), endA - cs ≤ fuel → cs < endA →
      countEla (writeChunks buf startA endA cs ce) + cs / 65536
        + (if ce = cs / 65536 then 1 else 0) = (endA - 1) / 65536 + 1 := by
  have hm : M32 = 4294967296 := rfl
  intro fuel
  induction fuel with
  | zero => intro cs ce hf hcs; omega
  | succ f ih =>
    intro cs ce hf hcs
    rw [writeChunks_eq, if_pos hcs]
    have hl1 : 1 ≤ chunkLenF endA cs := chunkLenF_pos endA cs hcs
    have hpg : cs % 65536 + chunkLenF endA cs ≤ 65536 := chunkLenF_page endA cs
    have hlend : cs + chunkLenF endA cs ≤ endA := chunkLenF_le_end endA cs hcs
    set len := chunkLenF endA cs with hlendef
    have hcount : countEla ((if ce ≠ cs / 65536 then
          [Rec.ela (cs / 65536), Rec.data cs len
            ((List.range len).map (fun k => buf.getD (cs - startA + k) 0))]
        else [Rec.data cs len
            ((List.range len).map (fun k => buf.getD (cs - startA + k) 0))]) ++
        writeChunks buf startA endA (cs + len) (cs / 65536)) =
        (if ce = cs / 65536 then 0 else 1) +
          countEla (writeChunks buf startA endA (cs + len) (cs / 65536)) := by
      by_cases hce : ce ≠ cs / 65536
      · rw [if_pos hce, if_neg (by tauto)]
        simp only [List.cons_append, List.nil_append]
        rw [countEla_ela_data]
        omega
      · rw [if_neg hce, if_pos (by tauto)]
        simp only [List.cons_append, List.nil_append]
        rw [countEla_data_cons]
        omega
    rw [hcount]
    by_cases hlast : cs + len < endA
    · have hrec := ih (cs + len) (cs / 65536) (by omega) hlast
      have hpages : (cs + len) / 65536 = cs / 65536 ∨
          ((cs + len) / 65536 = cs / 65536 + 1 ∧ (cs + len) % 65536 = 0) := by
        omega
      rcases hpages with hp1 | hp1
      · rw [hp1] at hrec
        rw [if_pos rfl] at hrec
        by_cases hce : ce = cs / 65536
        · rw [if_pos hce, if_pos hce]
          omega
        · rw [if_neg hce, if_neg hce]
          omega
      · rw [hp1.1] at hrec
        rw [if_neg (by omega)] at hrec
        by_cases hce : ce = cs / 65536
        · rw [if_pos hce, if_pos hce]
          omega
        · rw [if_neg hce, if_neg hce]
          omega
    · have hrest : writeChunks buf startA endA (cs + len) (cs / 65536) = [] := by
        rw [writeChunks_eq, if_neg (by omega)]
      rw [hrest]
      have hee : cs + len = endA := by omega
      have hlp : (endA - 1) / 65536 = cs / 65536 := by omega
      simp only [countEla]
      by_cases hce : ce = cs / 65536
      · rw [if_pos hce, if_pos hce]
        omega
      · rw [if_neg hce, if_neg hce]
        omega

theorem elaChainOk_append_eof : ∀ (l : List Rec) (cur : Option Nat),
    elaChainOk (l ++ [Rec.eof]) cur = elaChainOk l cur
  | [], _ => rfl
  | Rec.eof :: rest, cur => by
    simp only [List.cons_append, List.append_eq, elaChainOk]
    exact elaChainOk_append_eof rest cur
  | Rec.data cs len bytes :: rest, cur => by
    simp only [List.cons_append, List.append_eq, elaChainOk]
    rw [elaChainOk_append_eof rest cur]
  | [Rec.ela p], _ => rfl
  | Rec.ela p :: Rec.ela q :: rest, _ => rfl
  | Rec.ela p :: Rec.eof :: rest, _ => rfl
  | Rec.ela p :: Rec.data cs len bytes :: rest, cur => by
    simp only [List.cons_append, List.append_eq, elaChainOk]
    rw [elaChainOk_append_eof rest (some p)]

theorem writeChunks_elaChainOk (buf : List Nat) (startA endA : Nat) (hend : endA < M32) :
    ∀ (fuel cs ce : Nat), endA - cs ≤ fuel → cs < endA →
      (ce ≤ 65535 ∨ ce = 4294967295) →
      elaChainOk (writeChunks buf startA endA cs ce)
        (if ce = 4294967295 then none else some ce) = true := by
  have hm : M32 = 4294967296 := rfl
  intro fuel
  induction fuel with
  | zero => intro cs ce hf hcs _; omega
  | succ f ih =>
    intro cs ce hf hcs hce0
    rw [writeChunks_eq, if_pos hcs]
    have hl1 : 1 ≤ chunkLenF endA cs := chunkLenF_pos endA cs hcs
    have hlend : cs + chunkLenF endA cs ≤ endA := chunkLenF_le_end endA cs hcs
    have hpage : cs / 65536 ≤ 65535 := by omega
    set len := chunkLenF endA cs with hlendef
    have hrest : elaChainOk (writeChunks buf startA endA (cs + len) (cs / 65536))
        (some (cs / 65536)) = true := by
      by_cases hlast : cs + len < endA
      · have := ih (cs + len) (cs / 65536) (by omega) hlast (Or.inl hpage)
        rw [if_neg (by omega)] at this
        exact this
      · rw [writeChunks_eq, if_neg (by omega)]
        rfl
    by_cases hce : ce ≠ cs / 65536
    · rw [if_pos hce]
      simp only [List.cons_append, List.nil_append]
      rw [elaChainOk_ela_data, hrest]
      have h1 : decide (cs / 65536 = cs / 65536) = true := by simp
      have h2 : decide (some (cs / 65536) ≠
          (if ce = 4294967295 then none else some ce)) = true := by
        by_cases hsent : ce = 4294967295
        · rw [if_pos hsent]
          simp
        · rw [if_neg hsent]
          simp
          omega
      rw [h1, h2]
      rfl
    · rw [if_neg hce]
      have hcee : ce = cs / 65536 := by tauto
      simp only [List.cons_append, List.nil_append]
      rw [elaChainOk_data_cons]
      rw [if_neg (show ¬ ce = 4294967295 by omega)]
      rw [hcee, hrest]
      simp

/-- C5 as amended.  When end > 65535 the encoder emits exactly one
Extended Linear Address record per 64KiB page it touches, each immediately
before the first Data record of that page (first conjunct counts them,
second conjunct checks the placement pattern); when end ≤ 65535 it emits
none.  The boundary case end = 65536 already forces an ELA record for page
0 even though the whole range fits in the first page. -/
theorem C5_ela_placement (buf : List Nat) (startA endA : Nat)
    (hlt : startA < endA) (hend : endA < M32) :
    countEla (ihex_write buf startA endA) =
      (if endA ≤ 65535 then 0 else (endA - 1) / 65536 - startA / 65536 + 1) ∧
    elaChainOk (ihex_write buf startA endA)
      (if endA ≤ 65535 then some 0 else none) = true := by
  have hm : M32 = 4294967296 := rfl
  unfold ihex_write
  by_cases he : endA ≤ 65535
  · rw [show (if endA > 65535 then 4294967295 else 0) = 0 from by
      rw [if_neg (by omega)]]
    rw [if_pos he, if_pos he]
    constructor
    · rw [countEla_append]
      have hcnt := writeChunks_countEla buf startA endA hend (endA - startA) startA 0
        (Nat.le_refl _) hlt
      rw [if_pos (by omega)] at hcnt
      simp only [countEla]
      omega
    · rw [elaChainOk_append_eof]
      have hchain := writeChunks_elaChainOk buf startA endA hend (endA - startA) startA 0
        (Nat.le_refl _) hlt (Or.inl (by omega))
      rw [if_neg (by omega)] at hchain
      exact hchain
  · rw [show (if endA > 65535 then 4294967295 else 0) = 4294967295 from by
      rw [if_pos (by omega)]]
    rw [if_neg he, if_neg he]
    constructor
    · rw [countEla_append]
      have hcnt := writeChunks_countEla buf startA endA hend (endA - startA) startA
        4294967295 (Nat.le_refl _) hlt
      rw [if_neg (by omega)] at hcnt
      simp only [countEla]
      omega
    · rw [elaChainOk_append_eof]
      have hchain := writeChunks_elaChainOk buf startA endA hend (endA - startA) startA
        4294967295 (Nat.le_refl _) hlt (Or.inr rfl)
      rw [if_pos rfl] at hchain
      exact hchain

/-- Witness for C5 on a range spanning two pages. -/
theorem C5_ela_placement_witness :
    (65534 < 65538 ∧ 65538 < M32) ∧
    countEla (ihex_write [1, 2, 3, 4] 65534 65538) =
      (if 65538 ≤ 65535 then 0 else (65538 - 1) / 65536 - 65534 / 65536 + 1) ∧
    elaChainOk (ihex_write [1, 2, 3, 4] 65534 65538)
      (if 65538 ≤ 65535 then some 0 else none) = true :=
  ⟨⟨by decide, by decide⟩,
    C5_ela_placement [1, 2, 3, 4] 65534 65538 (by decide) (by decide)⟩

/-- C5 counterexample.  The window [65520, 65536) lies entirely inside the
first 64KiB page, yet the encoder emits an Extended Linear Address record
(end = 65536 trips the end > 65535 test), refuting the claim that no ELA
record is emitted when the whole range fits in one page. -/
theorem C5_counterexample :
    (65520 : Nat) / 65536 = (65536 - 1) / 65536 ∧
    countEla (ihex_write (List.replicate 16 7) 65520 65536) = 1 :=
  ⟨by decide, by decide⟩


/-! ### The store guards and the greatest-address tracker -/

theorem readPairsGo_inv (startA endA lineNo : Nat) (line : List Char)
    (chunkLen chunkAddr chunkType : Nat) :
    ∀ (fuel i : Nat) (st : DecSt),
      (∀ w ∈ st.writes, wOk startA endA w) →
      st.greatest = st.spans.foldl max 0 →
      (∀ w ∈ (readPairsGo startA endA lineNo line chunkLen chunkAddr chunkType
        fuel i st).1.writes, wOk startA endA w) ∧
      (readPairsGo startA endA lineNo line chunkLen chunkAddr chunkType
        fuel i st).1.greatest =
        (readPairsGo startA endA lineNo line chunkLen chunkAddr chunkType
          fuel i st).1.spans.foldl max 0 := by
  intro fuel
  induction fuel with
  | zero => intro i st hw hg; exact ⟨hw, hg⟩
  | succ f ih =>
    intro i st hw hg
    simp only [readPairsGo]
    by_cases hi : i < line.length - 1
    · rw [if_pos hi]
      cases hs : scanHex 2 (line.drop i) with
      | none => exact ⟨hw, hg⟩
      | some p =>
        simp only
        by_cases ht : chunkType ≠ 0
        · rw [if_pos ht]; exact ⟨hw, hg⟩
        · rw [if_neg ht]
          by_cases hk : (i - 9) / 2 ≥ chunkLen
          · rw [if_pos hk]; exact ⟨hw, hg⟩
          · rw [if_neg hk]
            by_cases hlow : chunkAddr + st.offset < startA
            · rw [if_pos hlow]; exact ⟨hw, hg⟩
            · rw [if_neg hlow]
              by_cases hhigh : (chunkAddr + st.offset + chunkLen) % M32 > endA
              · rw [if_pos hhigh]; exact ⟨hw, hg⟩
              · rw [if_neg hhigh]
                apply ih
                · intro w hwmem
                  simp only [storeStep, List.mem_append, List.mem_singleton] at hwmem
                  rcases hwmem with hwmem | rfl
                  · exact hw w hwmem
                  · simp only [wOk]
                    refine ⟨by omega, by omega, by omega, by simp⟩
                · simp only [storeStep, List.foldl_append, List.foldl_cons, List.foldl_nil]
                  rw [← hg]
                  split <;> omega
    · rw [if_neg hi]; exact ⟨hw, hg⟩


/-- Every result state of readLine is an offset update of the input state,
possibly further transformed by the data loop. -/
theorem readLine_cases (startA endA lineNo : Nat) (line : List Char) (st : DecSt) :
    ∃ o, (readLine startA endA lineNo line st).1 = { st with offset := o } ∨
      ∃ cl ca ct, (readLine startA endA lineNo line st).1 =
        (readPairs startA endA lineNo line cl ca ct 9 { st with offset := o }).1 := by
  unfold readLine
  rw [stripCR_id]
  dsimp only
  cases hh : parseHeader line with
  | none => exact ⟨st.offset, Or.inl rfl⟩
  | some t =>
    obtain ⟨cl, ca, ct⟩ := t
    dsimp only
    by_cases h2 : ct = 2
    · rw [if_pos h2]
      cases hs : scanHex 4 (line.drop 9) with
      | none =>
        dsimp only
        exact ⟨st.offset, Or.inl rfl⟩
      | some p =>
        dsimp only
        rw [if_neg (by omega)]
        dsimp only
        exact ⟨p.1 * 16, Or.inr ⟨cl, ca, ct, rfl⟩⟩
    · rw [if_neg h2]
      dsimp only
      by_cases h4 : ct = 4
      · rw [if_pos h4]
        cases hs : scanHex 4 (line.drop 9) with
        | none =>
          dsimp only
          exact ⟨st.offset, Or.inl rfl⟩
        | some p =>
          dsimp only
          exact ⟨p.1 * 65536, Or.inr ⟨cl, ca, ct, rfl⟩⟩
      · rw [if_neg h4]
        dsimp only
        exact ⟨st.offset, Or.inr ⟨cl, ca, ct, rfl⟩⟩

/-- The store guards and the tracker equation are preserved by one line. -/
theorem readLine_inv (startA endA lineNo : Nat) (line : List Char) (st : DecSt)
    (hw : ∀ w ∈ st.writes, wOk startA endA w)
    (hg : st.greatest = st.spans.foldl max 0) :
    (∀ w ∈ (readLine startA endA lineNo line st).1.writes, wOk startA endA w) ∧
    (readLine startA endA lineNo line st).1.greatest =
      (readLine startA endA lineNo line st).1.spans.foldl max 0 := by
  rcases readLine_cases startA endA lineNo line st with ⟨o, hc | ⟨cl, ca, ct, hc⟩⟩
  · rw [hc]
    exact ⟨hw, hg⟩
  · rw [hc]
    unfold readPairs
    exact readPairsGo_inv startA endA lineNo line cl ca ct _ 9
      { st with offset := o } hw hg

/-- The store guards and the tracker equation are preserved by the whole
line loop. -/
theorem readLines_inv (startA endA : Nat) (lines : List (List Char)) :
    ∀ (n : Nat) (st : DecSt),
      (∀ w ∈ st.writes, wOk startA endA w) →
      st.greatest = st.spans.foldl max 0 →
      (∀ w ∈ (readLines startA endA lines n st).1.writes, wOk startA endA w) ∧
      (readLines startA endA lines n st).1.greatest =
        (readLines startA endA lines n st).1.spans.foldl max 0 := by
  induction lines with
  | nil => intro n st hw hg; exact ⟨hw, hg⟩
  | cons l ls ih =>
    intro n st hw hg
    rw [readLines]
    cases hl : readLine startA endA (n + 1) l st with
    | mk st1 err =>
      have hinv := readLine_inv startA endA (n + 1) l st hw hg
      rw [hl] at hinv
      cases err with
      | none => exact ih (n + 1) st1 hinv.1 hinv.2
      | some e => exact hinv

/-- C10 as amended.  Whenever the decoder stores a byte whose record
satisfies the no-overflow condition (absolute address plus length field
below 2^32), the computed store index is exactly
record address + offset - start + byte position, and it lies inside
[0, end - start); stores of records whose 32-bit guard sum wraps are the
only ones that can escape the window. -/
theorem C10_store_bounds (text : List Char) (buf : List Nat) (startA endA : Nat)
    (hend : endA < M32) (w : WriteEv)
    (hw : w ∈ (ihex_read text buf startA endA).1.writes)
    (hnw : w.a + w.len < M32) :
    w.idx = w.a - startA + w.k ∧ w.idx < endA - startA := by
  have hm : M32 = 4294967296 := rfl
  have hinv := readLines_inv startA endA (fgetsSplit text) 0 ⟨0, 0, buf, [], []⟩
    (by intro w2 hw2; simp at hw2) rfl
  have hok : wOk startA endA w := hinv.1 w hw
  rcases hok with ⟨h1, h2, h3, h4⟩
  rw [Nat.mod_eq_of_lt (by omega)] at h2
  have hidx : w.a - startA + w.k < M32 := by omega
  rw [Nat.mod_eq_of_lt hidx] at h4
  exact ⟨h4, by omega⟩

/-- Witness for C10 on a one-byte record. -/
theorem C10_store_bounds_witness :
    (1 < M32 ∧
      (⟨0, 1, 0, 0, 0x41⟩ : WriteEv) ∈
        (ihex_read ((":0100000041AB\n").data) [0] 0 1).1.writes ∧
      (0:Nat) + 1 < M32) ∧
    ((0:Nat) = 0 - 0 + 0 ∧ (0:Nat) < 1 - 0) :=
  ⟨⟨by decide, by decide, by decide⟩,
    C10_store_bounds ((":0100000041AB\n").data) [0] 0 1 (by decide)
      ⟨0, 1, 0, 0, 0x41⟩ (by decide) (by decide)⟩

/-- C10 counterexample.  With the extension offset 0xFFFF0000 and record
address 0xFFFF the guard sum wraps modulo 2^32: the decode succeeds and
performs a store whose computed index 4294967295 is far outside the
three-byte window [0, 3). -/
theorem C10_counterexample :
    (ihex_read ((":02000004FFFFFC\n:02FFFF00ABCD88\n").data) [0, 0, 0] 0 3).2 = none ∧
    (⟨4294967295, 2, 0, 4294967295, 0xAB⟩ : WriteEv) ∈
      (ihex_read ((":02000004FFFFFC\n:02FFFF00ABCD88\n").data) [0, 0, 0] 0 3).1.writes ∧
    ¬ (4294967295 : Nat) < 3 - 0 :=
  ⟨by decide, by decide, by decide⟩

/-- C7 as amended.  On success ihex_read returns the 32-bit difference
greatest_addr - start reinterpreted as a C int, where greatest_addr is the
running maximum (with initial value 0) of the 32-bit values
record address + offset + record length over all data-loop iterations that
passed the range checks (the ghost history spans); if no such iteration
happened the tracker stays 0 and the return value is 0 - start in the same
32-bit sense.  Data records with a zero length field or an empty data
field never update the tracker. -/
theorem C7_return_value (text : List Char) (buf : List Nat) (startA endA : Nat)
    (hok : (ihex_read text buf startA endA).2 = none) :
    ihex_read_ret text buf startA endA =
      toInt32 (usub32 ((ihex_read text buf startA endA).1.spans.foldl max 0) startA) ∧
    ((ihex_read text buf startA endA).1.spans = [] →
      ihex_read_ret text buf startA endA = toInt32 (usub32 0 startA)) := by
  have hinv := readLines_inv startA endA (fgetsSplit text) 0 ⟨0, 0, buf, [], []⟩
    (by intro w2 hw2; simp at hw2) rfl
  have hmain : ihex_read_ret text buf startA endA =
      toInt32 (usub32 ((ihex_read text buf startA endA).1.spans.foldl max 0) startA) := by
    unfold ihex_read_ret
    cases hr : ihex_read text buf startA endA with
    | mk st err =>
      cases err with
      | none =>
        have hg := hinv.2
        have hr2 : readLines startA endA (fgetsSplit text) 0 ⟨0, 0, buf, [], []⟩ =
            (st, none) := hr
        rw [hr2] at hg
        dsimp only at hg
        dsimp only
        rw [hg]
      | some e =>
        rw [hr] at hok
        simp at hok
  refine ⟨hmain, ?_⟩
  intro hsp
  rw [hmain, hsp]
  rfl

/-- Witness for C7 on a one-record decode. -/
theorem C7_return_value_witness :
    ((ihex_read ((":0100000041AB\n").data) [0] 0 1).2 = none) ∧
    (ihex_read_ret ((":0100000041AB\n").data) [0] 0 1 =
      toInt32 (usub32 (((ihex_read ((":0100000041AB\n").data) [0] 0 1).1.spans).foldl max 0) 0)) :=
  ⟨by decide,
    (C7_return_value ((":0100000041AB\n").data) [0] 0 1 (by decide)).1⟩

/-- C7 counterexample.  The text consisting only of the truncated data
record ":01000000" (length field 1, address 0, type 0, no data field)
decodes without error and returns 0, while the running maximum of
record address + offset + record length over all Data records processed
would be 0 + 0 + 1 = 1, so the claimed return value 1 - 0 = 1 differs from
the actual 0: records whose data field never yields a parsed byte do not
update the tracker. -/
theorem C7_counterexample :
    (ihex_read ((":01000000\n").data) [0] 0 1).2 = none ∧
    parseHeader ((":01000000\n").data) = some (1, 0, 0) ∧
    (ihex_read ((":01000000\n").data) [0] 0 1).1.offset = 0 ∧
    ihex_read_ret ((":01000000\n").data) [0] 0 1 = 0 ∧
    toInt32 (usub32 (0 + 0 + 1) 0) = 1 ∧
    (0 : Int) ≠ 1 :=
  ⟨by decide, by decide, by decide, by decide, by decide, by decide⟩


/-! ### Standard record lines and their data fields -/

theorem flatPairs_toPairs : ∀ (n : Nat) (l : List Char), l.length = 2 * n →
    flatPairs (toPairs l) = l
  | 0, l, h => by
    have : l = [] := List.eq_nil_of_length_eq_zero (by omega)
    subst this
    rfl
  | n + 1, [], h => by simp at h
  | n + 1, [c], h => by simp at h; omega
  | n + 1, c1 :: c2 :: r, h => by
    show flatPairs ((c1, c2) :: toPairs r) = _
    rw [flatPairs_cons]
    rw [flatPairs_toPairs n r (by simp at h; omega)]

theorem toPairs_length : ∀ (n : Nat) (l : List Char), l.length = 2 * n →
    (toPairs l).length = n
  | 0, l, h => by
    have : l = [] := List.eq_nil_of_length_eq_zero (by omega)
    subst this
    rfl
  | n + 1, [], h => by simp at h
  | n + 1, [c], h => by simp at h; omega
  | n + 1, c1 :: c2 :: r, h => by
    show ((c1, c2) :: toPairs r).length = n + 1
    rw [List.length_cons, toPairs_length n r (by simp at h; omega)]

theorem toPairs_hex : ∀ (l : List Char), (∀ c ∈ l, isHexDigit c = true) →
    ∀ p ∈ toPairs l, hexPair p
  | [], _, p, hp => by simp [toPairs] at hp
  | [c], _, p, hp => by simp [toPairs] at hp
  | c1 :: c2 :: r, h, p, hp => by
    have he : toPairs (c1 :: c2 :: r) = (c1, c2) :: toPairs r := rfl
    rw [he, List.mem_cons] at hp
    rcases hp with rfl | hp
    · exact ⟨h c1 (by simp), h c2 (by simp)⟩
    · exact toPairs_hex r (fun c hc => h c (by simp [hc])) p hp

/-- The right-associated form of a standard record line. -/
theorem stdRender_eq (r : StdRec) :
    r.render = ':' :: (hex2 r.len ++ (hex4 r.addr ++ (hex2 r.typ
      ++ (r.payload ++ [r.ck1, r.ck2, '\n'])))) := by
  simp [StdRec.render, List.append_assoc]

/-- A well-formed standard record line is one fgets line. -/
theorem goodLine_stdRender (r : StdRec) (h : r.wf) : goodLine r.render := by
  rcases h with ⟨hlen, haddr, htyp, hpl, hph, hc1, hc2, _⟩
  refine ⟨':' :: (hex2 r.len ++ hex4 r.addr ++ hex2 r.typ ++ r.payload ++ [r.ck1, r.ck2]),
    ?_, ?_, ?_⟩
  · rw [stdRender_eq]
    simp [List.append_assoc]
  · simp [hpl]
    omega
  · intro hmem
    simp only [List.mem_cons, List.mem_append, List.mem_singleton] at hmem
    rcases hmem with h1 | ((((h1 | h1) | h1) | h1) | (h1 | h1 | h1))
    · simp at h1
    · exact nl_not_mem_hex2 _ h1
    · exact nl_not_mem_hex4 _ h1
    · exact nl_not_mem_hex2 _ h1
    · exact isHexDigit_ne_nl _ (hph _ h1) rfl
    · exact isHexDigit_ne_nl _ (by rw [← h1] at hc1; exact hc1) rfl
    · exact isHexDigit_ne_nl _ (by rw [← h1] at hc2; exact hc2) rfl
    · simp at h1


/-! ### Decoding ignores the checksum characters of standard lines -/

/-- readLine on a well-formed standard record line does not depend on the
two checksum characters, provided extension records carry their two
payload bytes (length field at least 2). -/
theorem readLine_ck_irrel (startA endA lineNo : Nat) (st : DecSt)
    (len addr typ : Nat) (payload : List Char) (c1 c2 d1 d2 : Char)
    (hlen : len < 256) (haddr : addr < 65536) (htyp : typ < 256)
    (hpl : payload.length = 2 * len) (hph : ∀ c ∈ payload, isHexDigit c = true)
    (hc1 : isHexDigit c1 = true) (hc2 : isHexDigit c2 = true)
    (hd1 : isHexDigit d1 = true) (hd2 : isHexDigit d2 = true)
    (hext : (typ = 2 ∨ typ = 4) → 2 ≤ len) :
    readLine startA endA lineNo (StdRec.render ⟨len, addr, typ, payload, c1, c2⟩) st =
      readLine startA endA lineNo (StdRec.render ⟨len, addr, typ, payload, d1, d2⟩) st := by
  have hrend : ∀ e1 e2 : Char, StdRec.render ⟨len, addr, typ, payload, e1, e2⟩ =
      ':' :: (hex2 len ++ (hex4 addr ++ (hex2 typ ++ (payload ++ [e1, e2, '\n'])))) := by
    intro e1 e2
    rw [stdRender_eq]
  have hh : ∀ e1 e2 : Char,
      parseHeader (StdRec.render ⟨len, addr, typ, payload, e1, e2⟩) =
        some (len, addr, typ) := by
    intro e1 e2
    rw [hrend e1 e2]
    exact parseHeader_std len addr typ _ hlen haddr htyp
  have hd9 : ∀ e1 e2 : Char,
      (StdRec.render ⟨len, addr, typ, payload, e1, e2⟩).drop 9 =
        payload ++ [e1, e2, '\n'] := by
    intro e1 e2
    rw [hrend e1 e2]
    exact drop9_header (hex2 len) (hex4 addr) (hex2 typ) _ rfl rfl rfl
  have hll : ∀ e1 e2 : Char,
      (StdRec.render ⟨len, addr, typ, payload, e1, e2⟩).length = 12 + 2 * len := by
    intro e1 e2
    rw [hrend e1 e2]
    simp [hpl]
    omega
  by_cases ht0 : typ = 0
  · subst ht0
    have hstep : ∀ e1 e2 : Char,
        readLine startA endA lineNo (StdRec.render ⟨len, addr, 0, payload, e1, e2⟩) st =
          readPairs startA endA lineNo (StdRec.render ⟨len, addr, 0, payload, e1, e2⟩)
            len addr 0 9 st :=
      fun e1 e2 => readLine_header startA endA lineNo _ st len addr 0 (hh e1 e2)
        (by decide) (by decide)
    rw [hstep c1 c2, hstep d1 d2]
    by_cases hl0 : len = 0
    · subst hl0
      have hpl0 : payload = [] := List.eq_nil_of_length_eq_zero (by omega)
      subst hpl0
      have hev : ∀ e1 e2 : Char, isHexDigit e1 = true → isHexDigit e2 = true →
          readPairs startA endA lineNo (StdRec.render ⟨0, addr, 0, [], e1, e2⟩)
            0 addr 0 9 st = (st, none) := by
        intro e1 e2 he1 he2
        rw [readPairs_cont startA endA lineNo _ 0 addr 0 9 st (hv e1 * 16 + hv e2) ['\n']
          (by rw [hll e1 e2]; omega)
          (by rw [hd9 e1 e2]; exact scanHex_pair e1 e2 _ he1 he2)]
        rw [if_neg (show ¬ ((0:Nat) ≠ 0) by simp), if_pos (show (9 - 9) / 2 ≥ 0 by omega)]
      rw [hev c1 c2 hc1 hc2, hev d1 d2 hd1 hd2]
    · rcases hpay : payload with _ | ⟨p1, pr1⟩
      · rw [hpay] at hpl; simp at hpl; omega
      rcases hpr1 : pr1 with _ | ⟨p2, pr⟩
      · rw [hpay, hpr1] at hpl; simp at hpl; omega
      subst hpr1
      subst hpay
      have hp1 : isHexDigit p1 = true := hph p1 (by simp)
      have hp2 : isHexDigit p2 = true := hph p2 (by simp)
      have hfp : ∀ e1 e2 : Char,
          scanHex 2 ((StdRec.render ⟨len, addr, 0, p1 :: p2 :: pr, e1, e2⟩).drop 9) =
            some (hv p1 * 16 + hv p2, pr ++ [e1, e2, '\n']) := by
        intro e1 e2
        rw [hd9 e1 e2]
        exact scanHex_pair p1 p2 _ hp1 hp2
      by_cases hbad : addr + st.offset < startA ∨ (addr + st.offset + len) % M32 > endA
      · have hev : ∀ e1 e2 : Char,
            readPairs startA endA lineNo (StdRec.render ⟨len, addr, 0, p1 :: p2 :: pr, e1, e2⟩)
              len addr 0 9 st =
            (st, some (if addr + st.offset < startA then RErr.rangeLow lineNo
              else RErr.rangeHigh lineNo)) := by
          intro e1 e2
          exact readPairs_range_fail startA endA lineNo _ len addr st _ _
            (by rw [hll e1 e2]; omega) (hfp e1 e2) (by omega) hbad
        rw [hev c1 c2, hev d1 d2]
      · push_neg at hbad
        have hev : ∀ e1 e2 : Char, isHexDigit e1 = true → isHexDigit e2 = true →
            readPairs startA endA lineNo (StdRec.render ⟨len, addr, 0, p1 :: p2 :: pr, e1, e2⟩)
              len addr 0 9 st =
            (storeRun startA (addr + st.offset) len 0 (pairsVals (toPairs (p1 :: p2 :: pr)))
              st, none) := by
          intro e1 e2 he1 he2
          have hw := readPairs_walk startA endA lineNo
            (StdRec.render ⟨len, addr, 0, p1 :: p2 :: pr, e1, e2⟩) len addr e1 e2 st.offset
            (hll e1 e2) he1 he2 (by omega) (by omega)
            (toPairs (p1 :: p2 :: pr)) 0 st rfl
            (by rw [toPairs_length len _ hpl]; omega)
            (by
              rw [show (9 + 2 * 0) = 9 from rfl, hd9 e1 e2,
                flatPairs_toPairs len _ hpl])
            (toPairs_hex _ hph)
          rw [show (9 : Nat) = 9 + 2 * 0 from rfl, hw]
        rw [hev c1 c2 hc1 hc2, hev d1 d2 hd1 hd2]
  · -- non-data record types
    have hne0 : typ ≠ 0 := ht0
    -- evaluation of the data loop: it stops after one parsed pair
    have hloop : ∀ e1 e2 : Char, isHexDigit e1 = true → isHexDigit e2 = true →
        ∀ st4 : DecSt,
        readPairs startA endA lineNo (StdRec.render ⟨len, addr, typ, payload, e1, e2⟩)
          len addr typ 9 st4 = (st4, none) := by
      intro e1 e2 he1 he2 st4
      have hscan2 : ∃ pr2, scanHex 2
          ((StdRec.render ⟨len, addr, typ, payload, e1, e2⟩).drop 9) = some pr2 := by
        rw [hd9 e1 e2]
        rcases payload with _ | ⟨p1, _ | ⟨p2, pr⟩⟩
        · exact ⟨_, scanHex_pair e1 e2 _ he1 he2⟩
        · exact ⟨_, scanHex_pair p1 e1 _ (hph p1 (by simp)) he1⟩
        · exact ⟨_, scanHex_pair p1 p2 _ (hph p1 (by simp)) (hph p2 (by simp))⟩
      obtain ⟨pr2, hscan2⟩ := hscan2
      exact readPairs_nondata startA endA lineNo _ len addr typ st4 pr2 hne0 hscan2
    by_cases ht2 : typ = 2
    · subst ht2
      have h2len := hext (Or.inl rfl)
      rcases hpay : payload with _ | ⟨q1, t1⟩
      · rw [hpay] at hpl; simp at hpl; omega
      rcases ht1 : t1 with _ | ⟨q2, t2⟩
      · rw [hpay, ht1] at hpl; simp at hpl; omega
      rcases ht2' : t2 with _ | ⟨q3, t3⟩
      · rw [hpay, ht1, ht2'] at hpl; simp at hpl; omega
      rcases ht3 : t3 with _ | ⟨q4, t4⟩
      · rw [hpay, ht1, ht2', ht3] at hpl; simp at hpl; omega
      subst ht3; subst ht2'; subst ht1; subst hpay
      have hq : ∀ i ∈ [q1, q2, q3, q4], isHexDigit i = true := by
        intro i hi
        apply hph
        simp at hi
        rcases hi with rfl | rfl | rfl | rfl <;> simp
      have hscan : ∀ e1 e2 : Char,
          scanHex 4 ((StdRec.render ⟨len, addr, 2, q1 :: q2 :: q3 :: q4 :: t4, e1, e2⟩).drop 9) =
            some (((hv q1 * 16 + hv q2) * 16 + hv q3) * 16 + hv q4,
              t4 ++ [e1, e2, '\n']) := by
        intro e1 e2
        rw [hd9 e1 e2]
        exact scanHex_quad q1 q2 q3 q4 _ (hq q1 (by simp)) (hq q2 (by simp))
          (hq q3 (by simp)) (hq q4 (by simp))
      have hev : ∀ e1 e2 : Char, isHexDigit e1 = true → isHexDigit e2 = true →
          readLine startA endA lineNo
            (StdRec.render ⟨len, addr, 2, q1 :: q2 :: q3 :: q4 :: t4, e1, e2⟩) st =
          ({ st with offset := (((hv q1 * 16 + hv q2) * 16 + hv q3) * 16 + hv q4) * 16 },
            none) := by
        intro e1 e2 he1 he2
        rw [readLine_type2 startA endA lineNo _ st len addr _ _ (hh e1 e2) (hscan e1 e2)]
        exact hloop e1 e2 he1 he2 _
      rw [hev c1 c2 hc1 hc2, hev d1 d2 hd1 hd2]
    · by_cases ht4 : typ = 4
      · subst ht4
        have h2len := hext (Or.inr rfl)
        rcases hpay : payload with _ | ⟨q1, t1⟩
        · rw [hpay] at hpl; simp at hpl; omega
        rcases ht1 : t1 with _ | ⟨q2, t2⟩
        · rw [hpay, ht1] at hpl; simp at hpl; omega
        rcases ht2' : t2 with _ | ⟨q3, t3⟩
        · rw [hpay, ht1, ht2'] at hpl; simp at hpl; omega
        rcases ht3 : t3 with _ | ⟨q4, t4⟩
        · rw [hpay, ht1, ht2', ht3] at hpl; simp at hpl; omega
        subst ht3; subst ht2'; subst ht1; subst hpay
        have hq : ∀ i ∈ [q1, q2, q3, q4], isHexDigit i = true := by
          intro i hi
          apply hph
          simp at hi
          rcases hi with rfl | rfl | rfl | rfl <;> simp
        have hscan : ∀ e1 e2 : Char,
            scanHex 4 ((StdRec.render ⟨len, addr, 4, q1 :: q2 :: q3 :: q4 :: t4, e1, e2⟩).drop 9) =
              some (((hv q1 * 16 + hv q2) * 16 + hv q3) * 16 + hv q4,
                t4 ++ [e1, e2, '\n']) := by
          intro e1 e2
          rw [hd9 e1 e2]
          exact scanHex_quad q1 q2 q3 q4 _ (hq q1 (by simp)) (hq q2 (by simp))
            (hq q3 (by simp)) (hq q4 (by simp))
        have hev : ∀ e1 e2 : Char, isHexDigit e1 = true → isHexDigit e2 = true →
            readLine startA endA lineNo
              (StdRec.render ⟨len, addr, 4, q1 :: q2 :: q3 :: q4 :: t4, e1, e2⟩) st =
            ({ st with offset :=
                (((hv q1 * 16 + hv q2) * 16 + hv q3) * 16 + hv q4) * 65536 }, none) := by
          intro e1 e2 he1 he2
          rw [readLine_type4 startA endA lineNo _ st len addr _ _ (hh e1 e2) (hscan e1 e2)]
          exact hloop e1 e2 he1 he2 _
        rw [hev c1 c2 hc1 hc2, hev d1 d2 hd1 hd2]
      · have hev : ∀ e1 e2 : Char, isHexDigit e1 = true → isHexDigit e2 = true →
            readLine startA endA lineNo
              (StdRec.render ⟨len, addr, typ, payload, e1, e2⟩) st = (st, none) := by
          intro e1 e2 he1 he2
          rw [readLine_header startA endA lineNo _ st len addr typ (hh e1 e2) ht2 ht4]
          exact hloop e1 e2 he1 he2 st
        rw [hev c1 c2 hc1 hc2, hev d1 d2 hd1 hd2]



/-- Two sequences of well-formed standard lines with the same cores (all
fields except the checksum characters) decode identically from any state. -/
theorem readLines_ck_irrel (startA endA : Nat) :
    ∀ (rs1 rs2 : List StdRec), rs1.map StdRec.core = rs2.map StdRec.core →
    (∀ r ∈ rs1, r.wf) → (∀ r ∈ rs2, r.wf) →
    ∀ (n : Nat) (st : DecSt),
      readLines startA endA (rs1.map StdRec.render) n st =
        readLines startA endA (rs2.map StdRec.render) n st := by
  intro rs1
  induction rs1 with
  | nil =>
    intro rs2 hc _ _ n st
    cases rs2 with
    | nil => rfl
    | cons r2 t2 => simp at hc
  | cons r1 t1 ih =>
    intro rs2 hc hw1 hw2 n st
    cases rs2 with
    | nil => simp at hc
    | cons r2 t2 =>
      simp only [List.map_cons, List.cons.injEq] at hc
      obtain ⟨hcr, hct⟩ := hc
      have hw1r := hw1 r1 (by simp)
      have hw2r := hw2 r2 (by simp)
      have hw1t : ∀ r ∈ t1, r.wf := fun r hr => hw1 r (List.mem_cons_of_mem _ hr)
      have hw2t : ∀ r ∈ t2, r.wf := fun r hr => hw2 r (List.mem_cons_of_mem _ hr)
      obtain ⟨l1, a1, ty1, p1, k1, k2⟩ := r1
      obtain ⟨l2, a2, ty2, p2, m1, m2⟩ := r2
      simp only [StdRec.core, Prod.mk.injEq] at hcr
      obtain ⟨he1, he2, he3, he4⟩ := hcr
      subst he1; subst he2; subst he3; subst he4
      obtain ⟨g1, g2, g3, g4, g5, g6, g7, g8⟩ := hw1r
      obtain ⟨f1, f2, f3, f4, f5, f6, f7, f8⟩ := hw2r
      have hstep := readLine_ck_irrel startA endA (n + 1) st l1 a1 ty1 p1 k1 k2 m1 m2
        g1 g2 g3 g4 g5 g6 g7 f6 f7 g8
      simp only [List.map_cons, readLines]
      rw [hstep]
      rcases hres : readLine startA endA (n + 1)
          (StdRec.render ⟨l1, a1, ty1, p1, m1, m2⟩) st with ⟨st1, err⟩
      cases err with
      | none =>
        exact ih t2 hct hw1t hw2t (n + 1) st1
      | some e => rfl


/-- C9: as stated over arbitrary texts the property fails (see the
counterexample: extension records with length field 0 read their extension
value from the checksum characters).  Restricted to sequences of
well-formed standard record lines — extension records carrying their two
payload bytes — the decoder's result depends only on the cores of the
lines, never on their checksum characters: two such sequences with equal
cores give equal final states and equal return values. -/
theorem C9_checksum_ignored (startA endA : Nat) (buf : List Nat)
    (rs1 rs2 : List StdRec)
    (hc : rs1.map StdRec.core = rs2.map StdRec.core)
    (hw1 : ∀ r ∈ rs1, r.wf) (hw2 : ∀ r ∈ rs2, r.wf) :
    ihex_read (rs1.map StdRec.render).flatten buf startA endA =
      ihex_read (rs2.map StdRec.render).flatten buf startA endA ∧
    ihex_read_ret (rs1.map StdRec.render).flatten buf startA endA =
      ihex_read_ret (rs2.map StdRec.render).flatten buf startA endA := by
  have h1 : fgetsSplit (rs1.map StdRec.render).flatten = rs1.map StdRec.render := by
    apply fgetsSplit_flatten
    intro l hl
    simp only [List.mem_map] at hl
    obtain ⟨r, hr, rfl⟩ := hl
    exact goodLine_stdRender r (hw1 r hr)
  have h2 : fgetsSplit (rs2.map StdRec.render).flatten = rs2.map StdRec.render := by
    apply fgetsSplit_flatten
    intro l hl
    simp only [List.mem_map] at hl
    obtain ⟨r, hr, rfl⟩ := hl
    exact goodLine_stdRender r (hw2 r hr)
  have hmain : ihex_read (rs1.map StdRec.render).flatten buf startA endA =
      ihex_read (rs2.map StdRec.render).flatten buf startA endA := by
    unfold ihex_read
    rw [h1, h2]
    exact readLines_ck_irrel startA endA rs1 rs2 hc hw1 hw2 0 ⟨0, 0, buf, [], []⟩
  refine ⟨hmain, ?_⟩
  unfold ihex_read_ret
  rw [hmain]

/-- Instantiation of C9 at a concrete pair of one-record texts that differ
only in the checksum characters. -/
theorem C9_checksum_ignored_witness :
    ([⟨1, 0, 0, ['4', '1'], 'A', 'B'⟩] : List StdRec).map StdRec.core =
      ([⟨1, 0, 0, ['4', '1'], 'F', 'F'⟩] : List StdRec).map StdRec.core ∧
    (∀ r ∈ ([⟨1, 0, 0, ['4', '1'], 'A', 'B'⟩] : List StdRec), r.wf) ∧
    (∀ r ∈ ([⟨1, 0, 0, ['4', '1'], 'F', 'F'⟩] : List StdRec), r.wf) ∧
    (ihex_read (([⟨1, 0, 0, ['4', '1'], 'A', 'B'⟩] : List StdRec).map
        StdRec.render).flatten [0, 0, 0] 0 3 =
      ihex_read (([⟨1, 0, 0, ['4', '1'], 'F', 'F'⟩] : List StdRec).map
        StdRec.render).flatten [0, 0, 0] 0 3 ∧
    ihex_read_ret (([⟨1, 0, 0, ['4', '1'], 'A', 'B'⟩] : List StdRec).map
        StdRec.render).flatten [0, 0, 0] 0 3 =
      ihex_read_ret (([⟨1, 0, 0, ['4', '1'], 'F', 'F'⟩] : List StdRec).map
        StdRec.render).flatten [0, 0, 0] 0 3) :=
  ⟨by decide, by decide, by decide,
    C9_checksum_ignored 0 3 [0, 0, 0] _ _ (by decide) (by decide) (by decide)⟩

/-- The unrestricted C9 statement is false: these two texts differ only in
the checksum field of their first line (a type-04 record with length field
0), yet one decodes successfully with return value 1 and the other fails
with a range error, because the %04x extension scan starting at column 9
reads the checksum characters as the extension value. -/
theorem C9_counterexample :
    ([⟨0, 0, 4, [], '0', '0'⟩, ⟨1, 0, 0, ['4', '1'], 'A', 'B'⟩] : List StdRec).map
        StdRec.core =
      ([⟨0, 0, 4, [], '0', '1'⟩, ⟨1, 0, 0, ['4', '1'], 'A', 'B'⟩] : List StdRec).map
        StdRec.core ∧
    ihex_read_ret (([⟨0, 0, 4, [], '0', '0'⟩, ⟨1, 0, 0, ['4', '1'], 'A', 'B'⟩] :
        List StdRec).map StdRec.render).flatten [0, 0, 0] 0 3 = 1 ∧
    ihex_read_ret (([⟨0, 0, 4, [], '0', '1'⟩, ⟨1, 0, 0, ['4', '1'], 'A', 'B'⟩] :
        List StdRec).map StdRec.render).flatten [0, 0, 0] 0 3 = -1 := by
  decide

end Ihex
